import Mathlib

/-!
# Verification of the statement-summary extraction backend

Shallow embedding of `backend.py` of the `ia-sumatoria` repository: the
amount parser (`to_float_signed`), money formatter (`format_money`), the
Cabal-exact and universal pattern catalogues with their extraction routines
(`extract_cabal_exact`, `extract_universal`), and the per-page router and
consolidation (`extract_resumen_from_bytes`).

Modelling conventions:
* Monetary values are exact rationals (`ℚ`); Python `round(x, 2)` and the
  `.2f` formatting rounding are modelled as round-half-to-even on the exact
  decimal value.
* Code that can raise (`float(...)` on malformed text) returns `Option`;
  `none` is a raised `ValueError` propagating out of the extractor.
* The regular expressions of the catalogue are embedded as explicit item
  sequences interpreted by a backtracking matcher (`matchItems`) with
  Python `re` semantics: leftmost match, greedy/lazy quantifier priority,
  non-overlapping `finditer` continuation, case-insensitive literal
  comparison where `re.IGNORECASE` is set.
* PDF text extraction (`pdfplumber`) is out of scope per the specification;
  the consolidation is modelled on the list of page texts it yields, and the
  byte-level wrapper takes the collaborator as a parameter.
-/

namespace AIE

/-! ### Character utilities -/

/-- Whitespace as recognized by Python `str.strip`, `float` and the regex
class `\s`, on the character set that occurs in statement text (ASCII
whitespace plus no-break space). -/
def isSpaceB (c : Char) : Bool :=
  c = '\u00A0' || c = '\t' || c = '\n' || c = '\r' || c = '\x0b' || c = '\x0c' || c = ' '

def isDigitB (c : Char) : Bool := '0' ≤ c && c ≤ '9'

/-- The regex class `[-−]` (ASCII hyphen or Unicode minus). -/
def isDashB (c : Char) : Bool := c = '-' || c = '−'

def digitVal (c : Char) : Nat := c.toNat - 48

/-- Numeric value of a digit string, most significant digit first. -/
def natVal (ds : List Char) : Nat := ds.foldl (fun a c => a * 10 + digitVal c) 0

/-- Python `str.replace` for a one-character pattern and a one-character
replacement. -/
def replaceChar (a b : Char) (l : List Char) : List Char :=
  l.map fun c => if c = a then b else c

/-- Python `str.replace(a, "")` for a one-character pattern. -/
def removeChar (a : Char) (l : List Char) : List Char :=
  l.filter fun c => c != a

/-- Python `str.strip()`. -/
def pyStrip (l : List Char) : List Char :=
  ((l.dropWhile isSpaceB).reverse.dropWhile isSpaceB).reverse

def takeCount (p : Char → Bool) (l : List Char) : Nat := (l.takeWhile p).length

/-! ### Python `float()` on the finite decimal fragment -/

/-- Sign of a numeric literal: consumed flag and the rest. -/
def pySign (l : List Char) : Bool × List Char :=
  match l with
  | c :: t => if c = '-' then (true, t) else if c = '+' then (false, t) else (false, l)
  | [] => (false, l)

/-- Exponent part of a float literal (the `e`/`E` already consumed). -/
def pyExp (m : ℚ) (l : List Char) : Option ℚ :=
  let (eneg, l1) := pySign l
  let ds := l1.takeWhile isDigitB
  if ds.isEmpty || !(l1.dropWhile isDigitB).isEmpty then none
  else some (if eneg then m / 10 ^ natVal ds else m * 10 ^ natVal ds)

/-- CPython `float(str)` on finite decimal literals: surrounding whitespace,
optional sign, digits with at most one point, optional exponent.  The
`inf`/`nan` words and underscore digit separators are outside the fragment
this program can feed to `float`.  `none` models a raised `ValueError`. -/
def pyFloat (l0 : List Char) : Option ℚ :=
  let l := pyStrip l0
  let (neg, l1) := pySign l
  let d1 := l1.takeWhile isDigitB
  let r1 := l1.dropWhile isDigitB
  let (d2, r2) : List Char × List Char :=
    match r1 with
    | c :: t => if c = '.' then (t.takeWhile isDigitB, t.dropWhile isDigitB) else ([], r1)
    | [] => ([], r1)
  if d1.isEmpty && d2.isEmpty then none
  else
    let mant : ℚ := (natVal (d1 ++ d2) : ℚ) / (10 : ℚ) ^ d2.length
    let signed : ℚ := if neg then -mant else mant
    match r2 with
    | [] => some signed
    | c :: t => if c = 'e' || c = 'E' then pyExp signed t else none

/-- `backend.to_float_signed` (lines 11-13): strip, normalize the Unicode
minus, drop the thousands dots, turn the decimal comma into a point, then
`float()`.  `none` models a raised `ValueError`. -/
def to_float_signed (s : String) : Option ℚ :=
  pyFloat (replaceChar ',' '.' (removeChar '.' (replaceChar '−' '-' (pyStrip s.data))))

/-! ### Rounding and money formatting -/

/-- Round half to even to an integer (the rounding of Python `round` and of
`format`, taken on the exact decimal value). -/
def rhe (q : ℚ) : ℤ :=
  let f := q.num.fdiv q.den
  if q - f < 1 / 2 then f
  else if q - f > 1 / 2 then f + 1
  else if f % 2 = 0 then f else f + 1

/-- Python `round(x, 2)`. -/
def round2 (q : ℚ) : ℚ := (rhe (q * 100) : ℚ) / 100

def natDigitsGo : Nat → Nat → List Char → List Char
  | 0, _, acc => acc
  | fuel + 1, n, acc =>
      if n = 0 then acc else natDigitsGo fuel (n / 10) (Char.ofNat (48 + n % 10) :: acc)

/-- Decimal digits of a natural number, most significant first. -/
def natDigits (n : Nat) : List Char := if n = 0 then ['0'] else natDigitsGo (n + 1) n []

/-- Grouping helper on a reversed digit list: a separator after every three
digits from the right. -/
def grpRev (sep : Char) : List Char → List Char
  | a :: b :: c :: d :: rest => a :: b :: c :: sep :: grpRev sep (d :: rest)
  | l => l

/-- Thousands grouping from the right, as in Python `{:,}` formatting. -/
def group3 (sep : Char) (ds : List Char) : List Char := (grpRev sep ds.reverse).reverse

/-- Python `f"{x:,.2f}"`: comma thousands separators, decimal point, always
two decimals, a sign exactly for negative values. -/
def fmtComma2 (x : ℚ) : String :=
  let n := rhe (x * 100)
  let m := n.natAbs / 100
  let r := n.natAbs % 100
  let ds := group3 ',' (natDigits m) ++ '.' :: [Char.ofNat (48 + r / 10), Char.ofNat (48 + r % 10)]
  ⟨if x < 0 then '-' :: ds else ds⟩

/-- `backend.format_money` (lines 15-16): `f"{x:,.2f}"` followed by the
separator swap through the placeholder `X`. -/
def format_money (x : ℚ) : String :=
  ⟨replaceChar 'X' '.' (replaceChar '.' ',' (replaceChar ',' 'X' (fmtComma2 x).data))⟩

/-! ### The pattern matcher

Each regular expression of the catalogue is a sequence of `Item`s:
case-sensitive or case-insensitive literals, single-character classes with a
bounded or unbounded, greedy or lazy repetition count, an alternation of two
capture-free item sequences, and the one amount capture group of the
pattern.  `matchItems` performs the backtracking search in Python `re`
priority order and returns the first success. -/

/-- The shape of an amount capture group:
`uniSp` is `[\-−]?\s?\d{1,3}(?:\.\d{3})*,\d{2}`,
`uniAny` is `[\-−]?\d{1,3}(?:\.\d{3})*,\d{2}`,
`uniAscii` is `\-?\d{1,3}(?:\.\d{3})*,\d{2}`, and
`cabal` is `[\d.]+,\d{2}`. -/
inductive AmtKind where
  | uniSp
  | uniAny
  | uniAscii
  | cabal

inductive Item where
  | lit (ci : Bool) (cs : List Char)
  | cls (p : Char → Bool) (lo : Nat) (hi : Option Nat) (lz : Bool)
  | alt (xs ys : List Item)
  | amt (k : AmtKind)

/-- Candidate repetition counts from `hi` down to `lo` (greedy priority). -/
def descRange (hi lo : Nat) : List Nat := (List.range (hi + 1 - lo)).map (fun i => hi - i)

/-- Candidate repetition counts from `lo` up to `hi` (lazy priority). -/
def ascRange (lo hi : Nat) : List Nat := (List.range (hi + 1 - lo)).map (fun i => lo + i)

def clsKs (lo m : Nat) (lz : Bool) : List Nat := if lz then ascRange lo m else descRange m lo

/-- Largest possible repetition count of a single-character class at the head
of `cs`: the run length, capped by the quantifier bound. -/
def effMax (p : Char → Bool) (hi : Option Nat) (cs : List Char) : Nat :=
  match hi with
  | some h => min (takeCount p cs) h
  | none => takeCount p cs

/-- Strip a literal (case-insensitively when `ci` is set, as under
`re.IGNORECASE`). -/
def stripLit (ci : Bool) : List Char → List Char → Option (List Char)
  | [], cs => some cs
  | p :: ps, c :: cs =>
      if (if ci then p.toLower = c.toLower else p = c) then stripLit ci ps cs else none
  | _ :: _, [] => none

/-- Maximal number of leading `\.\d{3}` groups. -/
def countDotGroups : List Char → Nat
  | c0 :: a :: b :: c :: rest =>
      if c0 = '.' && isDigitB a && isDigitB b && isDigitB c then countDotGroups rest + 1 else 0
  | _ => 0

/-- Match `,\d{2}` at the head of a list: those three characters, and the
rest. -/
def commaTwo : List Char → Option (List Char × List Char)
  | c0 :: a :: b :: rest =>
      if c0 = ',' && isDigitB a && isDigitB b then some ([c0, a, b], rest) else none
  | _ => none

/-- All matches of `\d{1,3}(?:\.\d{3})*,\d{2}` at the head of `cs`, as
(consumed, rest) pairs in backtracking priority order (digit count greedy
outer, dot-group count greedy inner). -/
def coreCands (cs : List Char) : List (List Char × List Char) :=
  let run := min (takeCount isDigitB cs) 3
  (descRange run 1).flatMap fun k =>
    let cs1 := cs.drop k
    (descRange (countDotGroups cs1) 0).filterMap fun n =>
      (commaTwo (cs1.drop (4 * n))).map fun pr =>
        (cs.take k ++ cs1.take (4 * n) ++ pr.1, pr.2)

/-- All matches of `[\d.]+,\d{2}` at the head of `cs` (the Cabal amount
group), in backtracking priority order. -/
def cabalCands (cs : List Char) : List (String × List Char) :=
  let run := takeCount (fun c => isDigitB c || c = '.') cs
  (descRange run 1).filterMap fun k =>
    (commaTwo (cs.drop k)).map fun pr => (⟨cs.take k ++ pr.1⟩, pr.2)

/-- Greedy one-character option `X?`: with the character first, then without. -/
def optOpts (p : Char → Bool) (cs : List Char) : List (List Char × List Char) :=
  match cs with
  | c :: t => if p c then [([c], t), ([], cs)] else [([], cs)]
  | [] => [([], cs)]

/-- All matches of an amount capture group at the head of `cs`, with the
captured text, in backtracking priority order. -/
def amtCandidates : AmtKind → List Char → List (String × List Char)
  | .cabal, cs => cabalCands cs
  | .uniSp, cs =>
      (optOpts isDashB cs).flatMap fun sg =>
        (optOpts isSpaceB sg.2).flatMap fun sp =>
          (coreCands sp.2).map fun co => (⟨sg.1 ++ sp.1 ++ co.1⟩, co.2)
  | .uniAny, cs =>
      (optOpts isDashB cs).flatMap fun sg =>
        (coreCands sg.2).map fun co => (⟨sg.1 ++ co.1⟩, co.2)
  | .uniAscii, cs =>
      (optOpts (· = '-') cs).flatMap fun sg =>
        (coreCands sg.2).map fun co => (⟨sg.1 ++ co.1⟩, co.2)

/-- All completions of a capture-free item sequence at the head of `cs`, as
the remainders, in backtracking priority order.  The fuel only bounds the
recursion depth, which is at most the nesting depth plus the length of the
item sequence. -/
def matchSimple : Nat → List Item → List Char → List (List Char)
  | 0, _, _ => []
  | _ + 1, [], cs => [cs]
  | fuel + 1, .lit ci s :: rest, cs =>
      match stripLit ci s cs with
      | some cs1 => matchSimple fuel rest cs1
      | none => []
  | fuel + 1, .cls p lo hi lz :: rest, cs =>
      let m := effMax p hi cs
      if lo ≤ m then (clsKs lo m lz).flatMap fun k => matchSimple fuel rest (cs.drop k) else []
  | fuel + 1, .alt xs ys :: rest, cs =>
      (matchSimple fuel xs cs ++ matchSimple fuel ys cs).flatMap fun cs1 =>
        matchSimple fuel rest cs1
  | _ + 1, .amt _ :: _, _ => []

/-- Fuel for `matchSimple`: far larger than the depth plus length of any
pattern in the catalogue, so the search there is never cut short. -/
def simpleFuel : Nat := 100

/-- First success of the backtracking search for an item sequence at the head
of `cs`, in Python `re` priority order, with the amount capture and the
remainder. -/
def matchItems : List Item → List Char → Option (Option String × List Char)
  | [], cs => some (none, cs)
  | .lit ci s :: rest, cs =>
      match stripLit ci s cs with
      | some cs1 => matchItems rest cs1
      | none => none
  | .cls p lo hi lz :: rest, cs =>
      let m := effMax p hi cs
      if lo ≤ m then (clsKs lo m lz).findSome? fun k => matchItems rest (cs.drop k) else none
  | .alt xs ys :: rest, cs =>
      (matchSimple simpleFuel xs cs ++ matchSimple simpleFuel ys cs).findSome? fun cs1 =>
        matchItems rest cs1
  | .amt k :: rest, cs =>
      (amtCandidates k cs).findSome? fun pr =>
        (matchItems rest pr.2).map fun out => (some pr.1, out.2)

/-- `re.finditer`: scan left to right, keep the priority-first match at each
position, continue after each match (Python advances one position past a
zero-width match).  Collects the amount capture of every match.  Each step
consumes at least one character, so fuel `length + 1` is never exhausted. -/
def findGo (its : List Item) : Nat → List Char → List String
  | 0, _ => []
  | _ + 1, [] =>
      (match matchItems its [] with
       | some (some c, _) => [c]
       | _ => [])
  | fuel + 1, c :: t =>
      match matchItems its (c :: t) with
      | some (capOpt, rest) =>
          capOpt.toList ++
            (if rest.length < (c :: t).length then findGo its fuel rest else findGo its fuel t)
      | none => findGo its fuel t

/-- The amount captures of all matches of a pattern in a text, in order. -/
def findAllCaps (its : List Item) (s : String) : List String :=
  findGo its (s.data.length + 1) s.data

/-! ### The pattern catalogue (`backend.py` lines 19-78) -/

/-- Case-insensitive literal (universal patterns carry `re.IGNORECASE`). -/
def Lc (s : String) : Item := .lit true s.data

/-- Case-sensitive literal (the Cabal patterns have no flags). -/
def Lx (s : String) : Item := .lit false s.data

/-- `\s*` -/
def sp0 : Item := .cls isSpaceB 0 none false

/-- `\s+` -/
def sp1 : Item := .cls isSpaceB 1 none false

/-- `\.?` -/
def dotOpt : Item := .cls (fun c => c = '.') 0 (some 1) false

/-- `[-−]` -/
def dashIt : Item := .cls isDashB 1 (some 1) false

/-- `[^\n]{0,hi}?` -/
def gapNL (hi : Nat) : Item := .cls (fun c => c != '\n') 0 (some hi) true

/-- `.*?` (no `re.DOTALL`: anything but a newline, lazily) -/
def anyLazy : Item := .cls (fun c => c != '\n') 0 none true

/-- `[^\d\-−]*` -/
def gapND : Item := .cls (fun c => !(isDigitB c || isDashB c)) 0 none false

/-- `[^\d\-−]{0,120}` -/
def gapND120 : Item := .cls (fun c => !(isDigitB c || isDashB c)) 0 (some 120) false

/-- `[ÓO]` under `re.IGNORECASE`. -/
def oAcc : Item := .cls (fun c => c = 'Ó' || c = 'O' || c = 'ó' || c = 'o') 1 (some 1) false

/-- `(IVA[^\n]{0,200}?21,00\s*%)[^\n]{0,120}?([\-−]?\s?\d{1,3}(?:\.\d{3})*,\d{2})` -/
def RX_IVA21_ANY : List Item :=
  [Lc "IVA", gapNL 200, Lc "21,00", sp0, Lc "%", gapNL 120, .amt .uniSp]

/-- `(IVA\s*RI\s*CRED\.?\s*FISC\.?\s*COMERCIO\s*S/DTO\s*F\.?OTORG)[^\d\-−]{0,120}`
followed by `([\-−]?\d{1,3}(?:\.\d{3})*,\d{2})`. -/
def RX_IVA21_RI_DTO_FOT : List Item :=
  [Lc "IVA", sp0, Lc "RI", sp0, Lc "CRED", dotOpt, sp0, Lc "FISC", dotOpt, sp0,
   Lc "COMERCIO", sp0, Lc "S/DTO", sp0, Lc "F", dotOpt, Lc "OTORG", gapND120, .amt .uniAny]

/-- `(IVA\s*RI\s*SERV\.?\s*OPER\.?\s*INT\.?)[^\d\-−]{0,120}` followed by
`([\-−]?\d{1,3}(?:\.\d{3})*,\d{2})`. -/
def RX_IVA21_RI_SERV_INT : List Item :=
  [Lc "IVA", sp0, Lc "RI", sp0, Lc "SERV", dotOpt, sp0, Lc "OPER", dotOpt, sp0,
   Lc "INT", dotOpt, gapND120, .amt .uniAny]

/-- `(IVA\s*CRED\.?\s*FISC\.?\s*COM\.?\s*L\.?\s*25063\s*S/DTO\s*F\.?OTOR\s*10,50%|`
`IVA\s*S/COSTO\s*FINANCIERO\s*10,50%)[^\d\-−]*(\-?\d{1,3}(?:\.\d{3})*,\d{2})`. -/
def RX_IVA105 : List Item :=
  [.alt
    [Lc "IVA", sp0, Lc "CRED", dotOpt, sp0, Lc "FISC", dotOpt, sp0, Lc "COM", dotOpt, sp0,
     Lc "L", dotOpt, sp0, Lc "25063", sp0, Lc "S/DTO", sp0, Lc "F", dotOpt, Lc "OTOR", sp0,
     Lc "10,50%"]
    [Lc "IVA", sp0, Lc "S/COSTO", sp0, Lc "FINANCIERO", sp0, Lc "10,50%"],
   gapND, .amt .uniAscii]

/-- `(?:R\.?\s*G\.?|RG)` -/
def RG_ALT : Item := .alt [Lc "R", dotOpt, sp0, Lc "G", dotOpt] [Lc "RG"]

/-- `PERCEPCI[ÓO]N\s*IVA\s*(?:R\.?\s*G\.?|RG)\s*2408\s*3,00\s*%[^\d\-−]*` then
the amount. -/
def RX_PERC_IVA_30 : List Item :=
  [Lc "PERCEPCI", oAcc, Lc "N", sp0, Lc "IVA", sp0, RG_ALT, sp0, Lc "2408", sp0, Lc "3,00",
   sp0, Lc "%", gapND, .amt .uniAscii]

/-- `PERCEPCI[ÓO]N\s*IVA\s*(?:R\.?\s*G\.?|RG)\s*2408\s*1,50\s*%[^\d\-−]*` then
the amount. -/
def RX_PERC_IVA_15 : List Item :=
  [Lc "PERCEPCI", oAcc, Lc "N", sp0, Lc "IVA", sp0, RG_ALT, sp0, Lc "2408", sp0, Lc "1,50",
   sp0, Lc "%", gapND, .amt .uniAscii]

/-- `RETENCION\s*ING\.?\s*BRUTOS[^\d\-−]*` then the amount. -/
def RX_RET_IIBB : List Item :=
  [Lc "RETENCION", sp0, Lc "ING", dotOpt, sp0, Lc "BRUTOS", gapND, .amt .uniAscii]

/-- `RETENCI[ÓO]N\s*IVA[^\d\-−]*` then the amount. -/
def RX_RET_IVA : List Item :=
  [Lc "RETENCI", oAcc, Lc "N", sp0, Lc "IVA", gapND, .amt .uniAscii]

/-- `RETENCI[ÓO]N\s*(IMP\.?\s*GANANCIAS|GANANCIAS)[^\d\-−]*` then the amount
(which is capture group 2 in the source). -/
def RX_RET_GCIAS : List Item :=
  [Lc "RETENCI", oAcc, Lc "N", sp0,
   .alt [Lc "IMP", dotOpt, sp0, Lc "GANANCIAS"] [Lc "GANANCIAS"], gapND, .amt .uniAscii]

/-- `IVA S/ARANCEL DE DESCUENTO\s+21,00%.*?([\d.]+,\d{2})\s*[-−]` -/
def CABAL_IVA_ARANCEL_21 : List Item :=
  [Lx "IVA S/ARANCEL DE DESCUENTO", sp1, Lx "21,00%", anyLazy, .amt .cabal, sp0, dashIt]

/-- `IVA S/COSTO FINANCIERO\s+10,50%.*?([\d.]+,\d{2})\s*[-−]` -/
def CABAL_IVA_COSTO_10_5 : List Item :=
  [Lx "IVA S/COSTO FINANCIERO", sp1, Lx "10,50%", anyLazy, .amt .cabal, sp0, dashIt]

/-- `PERCEPCION DE IVA RG 333.*?([\d.]+,\d{2})\s*[-−]` -/
def CABAL_PERCEPCION_RG333 : List Item :=
  [Lx "PERCEPCION DE IVA RG 333", anyLazy, .amt .cabal, sp0, dashIt]

/-- `RETENCION DE INGRESOS BR.*?([\d.]+,\d{2})\s*[-−]` -/
def CABAL_RETENCION_IB : List Item :=
  [Lx "RETENCION DE INGRESOS BR", anyLazy, .amt .cabal, sp0, dashIt]

/-- `[-−]IVA\s+21,00%.*?([\d.]+,\d{2})\s*[-−]` -/
def CABAL_MENOS_IVA_21 : List Item :=
  [dashIt, Lx "IVA", sp1, Lx "21,00%", anyLazy, .amt .cabal, sp0, dashIt]

/-! ### The extractors (`backend.py` lines 27-37 and 80-91) -/

/-- Fold `tot += to_float_signed(capture)` over the matches of one pattern;
`none` is a `ValueError` raised while parsing a capture. -/
def sumParses (caps : List String) : Option ℚ :=
  caps.foldlM (fun a c => (to_float_signed c).map (a + ·)) 0

/-- The Cabal totals dictionary of `extract_cabal_exact`. -/
structure CabalTot where
  iva_arancel : ℚ
  iva_costo : ℚ
  percep_rg333 : ℚ
  ret_iibb : ℚ
  menos_iva : ℚ
deriving DecidableEq

/-- The universal totals dictionary of `extract_universal`. -/
structure UniTot where
  iva21 : ℚ
  iva105 : ℚ
  perc_30 : ℚ
  perc_15 : ℚ
  ret_iibb : ℚ
  ret_iva : ℚ
  ret_gcias : ℚ
deriving DecidableEq

def cabalZero : CabalTot := ⟨0, 0, 0, 0, 0⟩

def uniZero : UniTot := ⟨0, 0, 0, 0, 0, 0, 0⟩

/-- `backend.extract_cabal_exact` (lines 27-37): sum the matches of every
Cabal pattern into the per-key totals (no rounding). -/
def extract_cabal_exact (text : String) : Option CabalTot := do
  let a ← sumParses (findAllCaps CABAL_IVA_ARANCEL_21 text)
  let b ← sumParses (findAllCaps CABAL_IVA_COSTO_10_5 text)
  let c ← sumParses (findAllCaps CABAL_PERCEPCION_RG333 text)
  let d ← sumParses (findAllCaps CABAL_RETENCION_IB text)
  let e ← sumParses (findAllCaps CABAL_MENOS_IVA_21 text)
  pure ⟨a, b, c, d, e⟩

/-- `backend.extract_universal` (lines 80-91): sum the matches of every
universal pattern (the three VAT-21 patterns share the `iva21` key), then
round every value to two decimals. -/
def extract_universal (text : String) : Option UniTot := do
  let a ← sumParses (findAllCaps RX_IVA21_ANY text)
  let b ← sumParses (findAllCaps RX_IVA21_RI_DTO_FOT text)
  let c ← sumParses (findAllCaps RX_IVA21_RI_SERV_INT text)
  let i ← sumParses (findAllCaps RX_IVA105 text)
  let p3 ← sumParses (findAllCaps RX_PERC_IVA_30 text)
  let p1 ← sumParses (findAllCaps RX_PERC_IVA_15 text)
  let rb ← sumParses (findAllCaps RX_RET_IIBB text)
  let rv ← sumParses (findAllCaps RX_RET_IVA text)
  let rg ← sumParses (findAllCaps RX_RET_GCIAS text)
  pure ⟨round2 (a + b + c), round2 i, round2 p3, round2 p1, round2 rb, round2 rv, round2 rg⟩

/-- `extract_universal` without the final per-page rounding: the reference
point for the claim that rounding only at emission yields the same totals. -/
def extract_universal_raw (text : String) : Option UniTot := do
  let a ← sumParses (findAllCaps RX_IVA21_ANY text)
  let b ← sumParses (findAllCaps RX_IVA21_RI_DTO_FOT text)
  let c ← sumParses (findAllCaps RX_IVA21_RI_SERV_INT text)
  let i ← sumParses (findAllCaps RX_IVA105 text)
  let p3 ← sumParses (findAllCaps RX_PERC_IVA_30 text)
  let p1 ← sumParses (findAllCaps RX_PERC_IVA_15 text)
  let rb ← sumParses (findAllCaps RX_RET_IIBB text)
  let rv ← sumParses (findAllCaps RX_RET_IVA text)
  let rg ← sumParses (findAllCaps RX_RET_GCIAS text)
  pure ⟨a + b + c, i, p3, p1, rb, rv, rg⟩

/-! ### Router and consolidation (`backend.py` lines 94-141) -/

/-- The page-text preprocessing of the router:
`.replace("\xa0", " ").replace("−", "-")`. -/
def pre (t : String) : String := ⟨replaceChar '−' '-' (replaceChar '\u00A0' ' ' t.data)⟩

/-- `for k in cabal_tot: cabal_tot[k] += page_cabal[k]` -/
def addC (x y : CabalTot) : CabalTot :=
  ⟨x.iva_arancel + y.iva_arancel, x.iva_costo + y.iva_costo, x.percep_rg333 + y.percep_rg333,
   x.ret_iibb + y.ret_iibb, x.menos_iva + y.menos_iva⟩

/-- `for k in uni_tot: uni_tot[k] += page_uni[k]` -/
def addU (x y : UniTot) : UniTot :=
  ⟨x.iva21 + y.iva21, x.iva105 + y.iva105, x.perc_30 + y.perc_30, x.perc_15 + y.perc_15,
   x.ret_iibb + y.ret_iibb, x.ret_iva + y.ret_iva, x.ret_gcias + y.ret_gcias⟩

/-- The trigger of the Cabal strategy on a page:
`any(v != 0.0 for v in page_cabal.values())`. -/
def cabalNZ (pc : CabalTot) : Prop :=
  pc.iva_arancel ≠ 0 ∨ pc.iva_costo ≠ 0 ∨ pc.percep_rg333 ≠ 0 ∨ pc.ret_iibb ≠ 0 ∨
    pc.menos_iva ≠ 0

instance (pc : CabalTot) : Decidable (cabalNZ pc) := by
  unfold cabalNZ
  infer_instance

/-- One iteration of the page loop (lines 103-111): preprocess the page text,
run the Cabal extractor, and accumulate under the Cabal totals when any Cabal
value is non-zero, otherwise run and accumulate the universal extractor. -/
def stepPage (acc : Bool × CabalTot × UniTot) (page : String) :
    Option (Bool × CabalTot × UniTot) := do
  let text := pre page
  let pc ← extract_cabal_exact text
  if cabalNZ pc then
    pure (true, addC acc.2.1 pc, acc.2.2)
  else do
    let pu ← extract_universal text
    pure (acc.1, acc.2.1, addU acc.2.2 pu)

/-- The page loop, from the zero totals and `saw_cabal = False`. -/
def accumulate (pages : List String) : Option (Bool × CabalTot × UniTot) :=
  pages.foldlM stepPage (false, cabalZero, uniZero)

/-- `stepPage` with the unrounded universal extractor. -/
def stepPageRaw (acc : Bool × CabalTot × UniTot) (page : String) :
    Option (Bool × CabalTot × UniTot) := do
  let text := pre page
  let pc ← extract_cabal_exact text
  if cabalNZ pc then
    pure (true, addC acc.2.1 pc, acc.2.2)
  else do
    let pu ← extract_universal_raw text
    pure (acc.1, acc.2.1, addU acc.2.2 pu)

/-- The page loop over unrounded per-page universal totals. -/
def accumulateRaw (pages : List String) : Option (Bool × CabalTot × UniTot) :=
  pages.foldlM stepPageRaw (false, cabalZero, uniZero)

/-- The summary table: the two parallel columns of the `pd.DataFrame` built
at lines 132-140. -/
structure Resumen where
  conceptos : List String
  montos : List ℚ
deriving DecidableEq

/-- The fixed concept column (lines 133-138). -/
def conceptosList : List String :=
  ["Base Neto 21%", "IVA 21% (Total)", "Base Neto 10,5%", "IVA 10,5% (Total)",
   "Percepciones IVA (Total)", "Retenciones IBB", "Retenciones IVA", "Retenciones Ganancias"]

/-- The consolidation after the page loop (lines 113-140): pick the Cabal or
universal totals, round, derive the bases (guarded by Python truthiness of
the tax amount), and build the fixed-schema table. -/
def summarize (acc : Bool × CabalTot × UniTot) : Resumen :=
  if acc.1 then
    let iva21 := round2 acc.2.1.iva_arancel
    let base21 := if iva21 ≠ 0 then round2 (iva21 / 0.21) else 0
    let iva105 := round2 acc.2.1.iva_costo
    let base105 := if iva105 ≠ 0 then round2 (iva105 / 0.105) else 0
    let percep := round2 acc.2.1.percep_rg333
    let ret_iibb := round2 acc.2.1.ret_iibb
    ⟨conceptosList, [base21, iva21, base105, iva105, percep, ret_iibb, 0, 0]⟩
  else
    let iva21 := round2 acc.2.2.iva21
    let base21 := if iva21 ≠ 0 then round2 (iva21 / 0.21) else 0
    let iva105 := round2 acc.2.2.iva105
    let base105 := if iva105 ≠ 0 then round2 (iva105 / 0.105) else 0
    let percep := round2 (acc.2.2.perc_30 + acc.2.2.perc_15)
    let ret_iibb := round2 acc.2.2.ret_iibb
    let ret_iva := round2 acc.2.2.ret_iva
    let ret_gcias := round2 acc.2.2.ret_gcias
    ⟨conceptosList, [base21, iva21, base105, iva105, percep, ret_iibb, ret_iva, ret_gcias]⟩

/-- The consolidation of `extract_resumen_from_bytes` on the page texts the
external PDF collaborator yields. -/
def extract_resumen (pages : List String) : Option Resumen :=
  (accumulate pages).map summarize

/-- The consolidation as the specification words it: per-category amounts
accumulated unrounded, rounding applied only at the point of emission. -/
def extract_resumen_round_once (pages : List String) : Option Resumen :=
  (accumulateRaw pages).map summarize

/-- The amount of a summary row, looked up by its concept label. -/
def montoOf (r : Resumen) (c : String) : Option ℚ :=
  (r.conceptos.zip r.montos).lookup c

/-! ### The byte-level wrapper and its file-system effect -/

/-- A file system: a map from paths to byte contents. -/
abbrev FSystem : Type := String → Option (List Nat)

/-- `open(path, "wb"); f.write(bytes)` -/
def fsWrite (fs : FSystem) (p : String) (b : List Nat) : FSystem :=
  fun q => if q = p then some b else fs q

/-- `backend.extract_resumen_from_bytes` (lines 94-141): write the uploaded
bytes to the fixed temporary path `_aie_input.pdf`, read that file back
through the external `pdfplumber` collaborator (out of scope per the
specification, passed as the parameter `pageTexts` from bytes to page
texts), and consolidate.  The returned pair is the file system after the
call and the result. -/
def extract_resumen_from_bytes (pageTexts : List Nat → List String) (pdf_bytes : List Nat)
    (fs : FSystem) : FSystem × Option Resumen :=
  let fs1 := fsWrite fs "_aie_input.pdf" pdf_bytes
  let contents := (fs1 "_aie_input.pdf").getD []
  (fs1, extract_resumen (pageTexts contents))

/-! ### The amount grammar of the specification -/

/-- Decider for the spec's amount grammar `-?\d{1,3}(\.\d{3})*,\d{2}`
(full match). -/
def amountShape (s : String) : Bool :=
  match s.data with
  | c :: t =>
      if c = '-' then (coreCands t).any fun pr => pr.2.isEmpty
      else (coreCands (c :: t)).any fun pr => pr.2.isEmpty
  | [] => false

/-! ### Analysis predicates -/

/-- Monetary values that are a whole number of cents. -/
def Cents (q : ℚ) : Prop := ∃ k : ℤ, q = (k : ℚ) / 100

/-- Every value the amount parser can produce from this string is a whole
number of cents. -/
def CapCents (s : String) : Prop := ∀ v : ℚ, to_float_signed s = some v → Cents v

/-- Whether a page (after preprocessing) selects the Cabal strategy. -/
def isCabalPage (p : String) : Bool :=
  match extract_cabal_exact (pre p) with
  | some pc => decide (cabalNZ pc)
  | none => false

/-- The Cabal totals of a page (zero in the error case, which cannot
coexist with a successful document run). -/
def pageCabal (p : String) : CabalTot := (extract_cabal_exact (pre p)).getD cabalZero

/-- The universal totals of a page (zero in the error case). -/
def pageUni (p : String) : UniTot := (extract_universal (pre p)).getD uniZero

/-- Pointwise sum of the per-page Cabal totals of a list of pages. -/
def sumCabal (ps : List String) : CabalTot :=
  ps.foldl (fun a p => addC a (pageCabal p)) cabalZero

/-- Pointwise sum of the per-page universal totals of a list of pages. -/
def sumUni (ps : List String) : UniTot :=
  ps.foldl (fun a p => addU a (pageUni p)) uniZero

/-! ## Lemmas: list and character helpers -/

theorem dropWhile_cons_neg {p : Char → Bool} {c : Char} {l : List Char} (h : p c = false) :
    (c :: l).dropWhile p = c :: l := by
  simp [List.dropWhile_cons, h]

theorem pyStrip_cons_space {w : Char} {l : List Char} (h : isSpaceB w = true) :
    pyStrip (w :: l) = pyStrip l := by
  unfold pyStrip
  simp [List.dropWhile_cons, h]

theorem pyStrip_sandwich {c e : Char} {l : List Char}
    (hc : isSpaceB c = false) (he : isSpaceB e = false) :
    pyStrip (c :: (l ++ [e])) = c :: (l ++ [e]) := by
  unfold pyStrip
  rw [dropWhile_cons_neg hc]
  have hrev : (c :: (l ++ [e])).reverse = e :: (l.reverse ++ [c]) := by simp
  rw [hrev, dropWhile_cons_neg he, ← hrev, List.reverse_reverse]

theorem pyStrip_no_space {l : List Char} (h : ∀ c ∈ l, isSpaceB c = false) : pyStrip l = l := by
  cases l with
  | nil => rfl
  | cons c t =>
    have hc := h c (by simp)
    rcases ht : (c :: t).reverse with _ | ⟨e, r⟩
    · simp at ht
    · have he : isSpaceB e = false := by
        refine h e ?_
        have hm : e ∈ (c :: t).reverse := by rw [ht]; simp
        rw [List.mem_reverse] at hm
        exact hm
      unfold pyStrip
      rw [dropWhile_cons_neg hc, ht, dropWhile_cons_neg he, ← ht, List.reverse_reverse]

theorem takeWhile_all_append {p : Char → Bool} {y : Char} :
    ∀ {xs ys : List Char}, (∀ c ∈ xs, p c = true) → p y = false →
      (xs ++ y :: ys).takeWhile p = xs := by
  intro xs
  induction xs with
  | nil => intro ys _ hy; simp [List.takeWhile_cons, hy]
  | cons c t ih =>
    intro ys h hy
    have hc := h c (by simp)
    simp only [List.cons_append, List.takeWhile_cons, hc, if_true]
    rw [ih (fun d hd => h d (by simp [hd])) hy]

theorem dropWhile_all_append {p : Char → Bool} {y : Char} :
    ∀ {xs ys : List Char}, (∀ c ∈ xs, p c = true) → p y = false →
      (xs ++ y :: ys).dropWhile p = y :: ys := by
  intro xs
  induction xs with
  | nil => intro ys _ hy; simp [List.dropWhile_cons, hy]
  | cons c t ih =>
    intro ys h hy
    have hc := h c (by simp)
    simp only [List.cons_append, List.dropWhile_cons, hc, if_true]
    exact ih (fun d hd => h d (by simp [hd])) hy

theorem replaceChar_append (a b : Char) (l1 l2 : List Char) :
    replaceChar a b (l1 ++ l2) = replaceChar a b l1 ++ replaceChar a b l2 := by
  simp [replaceChar]

theorem replaceChar_id {a b : Char} {l : List Char} (h : ∀ c ∈ l, c ≠ a) :
    replaceChar a b l = l := by
  induction l with
  | nil => rfl
  | cons c t ih =>
    have ht : replaceChar a b t = t := ih fun d hd => h d (List.mem_cons_of_mem _ hd)
    simp only [replaceChar, List.map_cons] at ht ⊢
    rw [if_neg (h c (by simp)), ht]

theorem removeChar_append (a : Char) (l1 l2 : List Char) :
    removeChar a (l1 ++ l2) = removeChar a l1 ++ removeChar a l2 := by
  simp [removeChar]

theorem removeChar_id {a : Char} {l : List Char} (h : ∀ c ∈ l, c ≠ a) :
    removeChar a l = l := by
  induction l with
  | nil => rfl
  | cons c t ih =>
    have ht : removeChar a t = t := ih fun d hd => h d (List.mem_cons_of_mem _ hd)
    simp only [removeChar, List.filter_cons] at ht ⊢
    have : (c != a) = true := by simpa using h c (by simp)
    rw [if_pos this, ht]

/-! ## Lemmas: cents arithmetic -/

theorem cents_zero : Cents 0 := ⟨0, by norm_num⟩

theorem cents_div100 (k : ℤ) : Cents ((k : ℚ) / 100) := ⟨k, rfl⟩

theorem cents_add {a b : ℚ} (ha : Cents a) (hb : Cents b) : Cents (a + b) := by
  obtain ⟨k, rfl⟩ := ha
  obtain ⟨m, rfl⟩ := hb
  exact ⟨k + m, by push_cast; ring⟩

theorem rhe_intCast (k : ℤ) : rhe (k : ℚ) = k := by
  unfold rhe
  rw [Rat.num_intCast, Rat.den_intCast]
  norm_num

theorem round2_cents {q : ℚ} (h : Cents q) : round2 q = q := by
  obtain ⟨k, rfl⟩ := h
  unfold round2
  have h100 : (k : ℚ) / 100 * 100 = (k : ℚ) := by field_simp
  rw [h100, rhe_intCast]


theorem space_not_digit {c : Char} (h : isSpaceB c = true) : isDigitB c = false := by
  simp only [isSpaceB, Bool.or_eq_true, decide_eq_true_eq] at h
  rcases h with ((((((h | h) | h) | h) | h) | h) | h) <;> subst h <;> decide

theorem space_facts {c : Char} (h : isSpaceB c = true) :
    c ≠ ',' ∧ c ≠ '.' ∧ c ≠ '−' ∧ c ≠ '-' ∧ c ≠ '+' ∧ isDigitB c = false := by
  simp only [isSpaceB, Bool.or_eq_true, decide_eq_true_eq] at h
  rcases h with ((((((h | h) | h) | h) | h) | h) | h) <;> subst h <;>
    exact ⟨by decide, by decide, by decide, by decide, by decide, by decide⟩

theorem digit_facts {c : Char} (h : isDigitB c = true) :
    c ≠ ',' ∧ c ≠ '.' ∧ c ≠ '−' ∧ c ≠ '-' ∧ c ≠ '+' ∧ isSpaceB c = false := by
  refine ⟨?_, ?_, ?_, ?_, ?_, ?_⟩
  · intro he; rw [he] at h; exact absurd h (by decide)
  · intro he; rw [he] at h; exact absurd h (by decide)
  · intro he; rw [he] at h; exact absurd h (by decide)
  · intro he; rw [he] at h; exact absurd h (by decide)
  · intro he; rw [he] at h; exact absurd h (by decide)
  · cases hsb : isSpaceB c with
    | false => rfl
    | true => rw [space_not_digit hsb] at h; cases h

theorem dash_cases {c : Char} (h : isDashB c = true) : c = '-' ∨ c = '−' := by
  simp only [isDashB, Bool.or_eq_true, decide_eq_true_eq] at h
  exact h

theorem takeWhile_all {p : Char → Bool} {l : List Char} (h : ∀ c ∈ l, p c = true) :
    l.takeWhile p = l := by
  induction l with
  | nil => rfl
  | cons c t ih =>
    simp only [List.takeWhile_cons, h c (by simp), if_true]
    rw [ih fun d hd => h d (by simp [hd])]

theorem dropWhile_all {p : Char → Bool} {l : List Char} (h : ∀ c ∈ l, p c = true) :
    l.dropWhile p = [] := by
  induction l with
  | nil => rfl
  | cons c t ih =>
    simp only [List.dropWhile_cons, h c (by simp), if_true]
    exact ih fun d hd => h d (by simp [hd])

theorem pySign_dash (t : List Char) : pySign ('-' :: t) = (true, t) := by
  simp [pySign]

theorem pySign_other {c : Char} (t : List Char) (h1 : c ≠ '-') (h2 : c ≠ '+') :
    pySign (c :: t) = (false, c :: t) := by
  simp [pySign, h1, h2]

theorem pyFloat_canonical {sgn bodyD : List Char} {a b : Char}
    (hsg : sgn = [] ∨ sgn = ['-'])
    (hbody : ∀ c ∈ bodyD, isDigitB c = true)
    (ha : isDigitB a = true) (hb : isDigitB b = true) :
    ∃ k : ℤ, pyFloat (sgn ++ (bodyD ++ '.' :: [a, b])) = some ((k : ℚ) / 100) := by
  have hnos : ∀ c ∈ sgn ++ (bodyD ++ '.' :: [a, b]), isSpaceB c = false := by
    intro c hc
    simp only [List.mem_append, List.mem_cons] at hc
    rcases hc with hc | hc | hc | hc | hc
    · rcases hsg with h | h <;> subst h
      · simp at hc
      · simp at hc; subst hc; decide
    · exact (digit_facts (hbody c hc)).2.2.2.2.2
    · subst hc; decide
    · subst hc; exact (digit_facts ha).2.2.2.2.2
    · rcases hc with hc | hc
      · subst hc; exact (digit_facts hb).2.2.2.2.2
      · simp at hc
  have hd1 : (bodyD ++ '.' :: [a, b]).takeWhile isDigitB = bodyD :=
    takeWhile_all_append hbody (by decide)
  have hr1 : (bodyD ++ '.' :: [a, b]).dropWhile isDigitB = '.' :: [a, b] :=
    dropWhile_all_append hbody (by decide)
  have hab : ∀ c ∈ ([a, b] : List Char), isDigitB c = true := by
    intro c hc
    rcases List.mem_cons.mp hc with h | h
    · subst h; exact ha
    · rcases List.mem_cons.mp h with h | h
      · subst h; exact hb
      · simp at h
  have hd2 : ([a, b] : List Char).takeWhile isDigitB = [a, b] := takeWhile_all hab
  have hr2 : ([a, b] : List Char).dropWhile isDigitB = [] := dropWhile_all hab
  have hsign : pySign (bodyD ++ '.' :: [a, b]) = (false, bodyD ++ '.' :: [a, b]) := by
    cases hbd : bodyD with
    | nil => simp only [List.nil_append]; exact pySign_other _ (by decide) (by decide)
    | cons d0 bt =>
      have hd0 : isDigitB d0 = true := hbody d0 (by rw [hbd]; simp)
      simp only [List.cons_append]
      rw [pySign_other _ (digit_facts hd0).2.2.2.1 (digit_facts hd0).2.2.2.2.1]
  rcases hsg with h | h <;> subst h
  · refine ⟨(natVal (bodyD ++ [a, b]) : ℤ), ?_⟩
    unfold pyFloat
    rw [List.nil_append, pyStrip_no_space (by simpa using hnos)]
    simp only [hsign, hd1, hr1, hd2, hr2]
    norm_num
  · refine ⟨-(natVal (bodyD ++ [a, b]) : ℤ), ?_⟩
    unfold pyFloat
    rw [pyStrip_no_space hnos]
    simp only [List.cons_append, List.nil_append, pySign_dash, hd1, hr1, hd2, hr2]
    norm_num
    ring

theorem replaceChar_cons (a b c : Char) (l : List Char) :
    replaceChar a b (c :: l) = (if c = a then b else c) :: replaceChar a b l := rfl

theorem removeChar_cons_keep {a c : Char} (l : List Char) (h : c ≠ a) :
    removeChar a (c :: l) = c :: removeChar a l := by
  simp [removeChar, List.filter_cons, h]

/-- The characters of a digits-and-dots body are not space, comma or minus. -/
theorem body_facts {c : Char} (h : isDigitB c = true ∨ c = '.') :
    c ≠ ',' ∧ c ≠ '−' ∧ isSpaceB c = false := by
  rcases h with h | h
  · obtain ⟨h1, _, h3, _, _, h6⟩ := digit_facts h
    exact ⟨h1, h3, h6⟩
  · subst h
    exact ⟨by decide, by decide, by decide⟩

/-- The normalization chain of `to_float_signed` on an amount tail
`body ++ ",dd"`: the minus replacement is the identity, the dots of the body
are dropped, and the comma becomes the decimal point. -/
theorem chain_suffix {body : List Char} {a b : Char}
    (hbody : ∀ c ∈ body, isDigitB c = true ∨ c = '.')
    (ha : isDigitB a = true) (hb : isDigitB b = true) :
    replaceChar ',' '.' (removeChar '.' (replaceChar '−' '-' (body ++ ',' :: [a, b])))
      = (body.filter fun c => c != '.') ++ '.' :: [a, b] := by
  have h1 : replaceChar '−' '-' (body ++ ',' :: [a, b]) = body ++ ',' :: [a, b] := by
    refine replaceChar_id ?_
    intro c hc
    simp only [List.mem_append, List.mem_cons] at hc
    rcases hc with hc | hc | hc | hc
    · exact (body_facts (hbody c hc)).2.1
    · subst hc; decide
    · subst hc; exact (digit_facts ha).2.2.1
    · rcases hc with hc | hc
      · subst hc; exact (digit_facts hb).2.2.1
      · simp at hc
  rw [h1, removeChar_append]
  have h2 : removeChar '.' (',' :: [a, b]) = ',' :: [a, b] := by
    refine removeChar_id ?_
    intro c hc
    simp only [List.mem_cons] at hc
    rcases hc with hc | hc | hc
    · subst hc; decide
    · subst hc; exact (digit_facts ha).2.1
    · rcases hc with hc | hc
      · subst hc; exact (digit_facts hb).2.1
      · simp at hc
  rw [h2, replaceChar_append]
  have h3 : replaceChar ',' '.' (removeChar '.' body) = removeChar '.' body := by
    refine replaceChar_id ?_
    intro c hc
    simp only [removeChar, List.mem_filter, bne_iff_ne] at hc
    rcases hbody c hc.1 with h | h
    · exact (digit_facts h).1
    · exact absurd h hc.2
  rw [h3]
  have h4 : replaceChar ',' '.' (',' :: [a, b]) = '.' :: [a, b] := by
    rw [replaceChar_cons, if_pos rfl, replaceChar_id]
    intro c hc
    simp only [List.mem_cons] at hc
    rcases hc with hc | hc
    · subst hc; exact (digit_facts ha).1
    · rcases hc with hc | hc
      · subst hc; exact (digit_facts hb).1
      · simp at hc
  rw [h4]
  rfl

/-- The digits left after dropping the dots of a digits-and-dots body. -/
theorem filter_dot_digits {body : List Char}
    (hbody : ∀ c ∈ body, isDigitB c = true ∨ c = '.') :
    ∀ c ∈ body.filter (fun c => c != '.'), isDigitB c = true := by
  intro c hc
  simp only [List.mem_filter, bne_iff_ne] at hc
  rcases hbody c hc.1 with h | h
  · exact h
  · exact absurd h hc.2

set_option maxHeartbeats 1600000 in
/-- An amount string of canonical shape, optionally signed, parses to a whole
number of cents. -/
theorem tfs_canonical_cents {sg body : List Char} {a b : Char}
    (hsg : sg = [] ∨ sg = ['-'] ∨ sg = ['−'])
    (hbody : ∀ c ∈ body, isDigitB c = true ∨ c = '.')
    (ha : isDigitB a = true) (hb : isDigitB b = true) :
    ∃ k : ℤ, to_float_signed ⟨sg ++ (body ++ ',' :: [a, b])⟩ = some ((k : ℚ) / 100) := by
  have hnos : ∀ c ∈ sg ++ (body ++ ',' :: [a, b]), isSpaceB c = false := by
    intro c hc
    simp only [List.mem_append, List.mem_cons] at hc
    rcases hc with hc | hc | hc | hc | hc
    · rcases hsg with h | h | h <;> subst h
      · simp at hc
      · simp at hc; subst hc; decide
      · simp at hc; subst hc; decide
    · exact (body_facts (hbody c hc)).2.2
    · subst hc; decide
    · subst hc; exact (digit_facts ha).2.2.2.2.2
    · rcases hc with hc | hc
      · subst hc; exact (digit_facts hb).2.2.2.2.2
      · simp at hc
  unfold to_float_signed
  have hdata : (⟨sg ++ (body ++ ',' :: [a, b])⟩ : String).data = sg ++ (body ++ ',' :: [a, b]) :=
    rfl
  rw [hdata, pyStrip_no_space hnos]
  rcases hsg with h | h | h <;> subst h
  · rw [List.nil_append, chain_suffix hbody ha hb]
    exact pyFloat_canonical (Or.inl rfl) (filter_dot_digits hbody) ha hb
  · have echain : replaceChar ',' '.' (removeChar '.' (replaceChar '−' '-'
        ('-' :: (body ++ ',' :: [a, b])))) =
        '-' :: ((body.filter fun c => c != '.') ++ '.' :: [a, b]) := by
      rw [replaceChar_cons '−' '-' '-', if_neg (by decide),
        removeChar_cons_keep _ (by decide), replaceChar_cons ',' '.' '-', if_neg (by decide),
        chain_suffix hbody ha hb]
    simp only [List.cons_append, List.nil_append]
    rw [echain]
    exact pyFloat_canonical (Or.inr rfl) (filter_dot_digits hbody) ha hb
  · have echain : replaceChar ',' '.' (removeChar '.' (replaceChar '−' '-'
        ('−' :: (body ++ ',' :: [a, b])))) =
        '-' :: ((body.filter fun c => c != '.') ++ '.' :: [a, b]) := by
      rw [replaceChar_cons '−' '-' '−', if_pos rfl,
        removeChar_cons_keep _ (by decide), replaceChar_cons ',' '.' '-', if_neg (by decide),
        chain_suffix hbody ha hb]
    simp only [List.cons_append, List.nil_append]
    rw [echain]
    exact pyFloat_canonical (Or.inr rfl) (filter_dot_digits hbody) ha hb

/-- A whitespace character in front of the input does not change the parse
(`str.strip` removes it). -/
theorem tfs_cons_space {w : Char} {l : List Char} (h : isSpaceB w = true) :
    to_float_signed ⟨w :: l⟩ = to_float_signed ⟨l⟩ := by
  unfold to_float_signed
  have hdata : (⟨w :: l⟩ : String).data = w :: l := rfl
  rw [hdata, pyStrip_cons_space h]

/-- `pyFloat` on a sign followed by whitespace: the mantissa is empty, so
`float()` raises. -/
theorem pyFloat_dash_space {w : Char} {rest : List Char}
    (hstrip : pyStrip ('-' :: w :: rest) = '-' :: w :: rest)
    (hwd : isDigitB w = false) (hwdot : w ≠ '.') :
    pyFloat ('-' :: w :: rest) = none := by
  unfold pyFloat
  rw [hstrip]
  simp [pySign_dash, List.takeWhile_cons, List.dropWhile_cons, hwd, hwdot]

/-- A sign followed by whitespace makes `float()` raise: the parse fails. -/
theorem tfs_dash_space_none {d w : Char} {body : List Char} {a b : Char}
    (hd : isDashB d = true) (hw : isSpaceB w = true)
    (hbody : ∀ c ∈ body, isDigitB c = true ∨ c = '.')
    (ha : isDigitB a = true) (hb : isDigitB b = true) :
    to_float_signed ⟨d :: w :: (body ++ ',' :: [a, b])⟩ = none := by
  have hdne : d ≠ '.' ∧ d ≠ ',' ∧ isSpaceB d = false := by
    rcases dash_cases hd with h | h <;> subst h <;> exact ⟨by decide, by decide, by decide⟩
  have hshape : d :: w :: (body ++ ',' :: [a, b]) = d :: ((w :: (body ++ [',', a])) ++ [b]) := by
    simp
  have hstrip : pyStrip (d :: w :: (body ++ ',' :: [a, b])) =
      d :: w :: (body ++ ',' :: [a, b]) := by
    rw [hshape, pyStrip_sandwich hdne.2.2 (digit_facts hb).2.2.2.2.2, ← hshape]
  unfold to_float_signed
  have hdata : (⟨d :: w :: (body ++ ',' :: [a, b])⟩ : String).data =
      d :: w :: (body ++ ',' :: [a, b]) := rfl
  rw [hdata, hstrip]
  have hwf := space_facts hw
  have hrep1 : replaceChar '−' '-' (d :: w :: (body ++ ',' :: [a, b])) =
      '-' :: w :: (body ++ ',' :: [a, b]) := by
    rw [replaceChar_cons, replaceChar_cons, if_neg hwf.2.2.1]
    have hmid : replaceChar '−' '-' (body ++ ',' :: [a, b]) = body ++ ',' :: [a, b] := by
      refine replaceChar_id ?_
      intro c hc
      simp only [List.mem_append, List.mem_cons] at hc
      rcases hc with hc | hc | hc | hc
      · exact (body_facts (hbody c hc)).2.1
      · subst hc; decide
      · subst hc; exact (digit_facts ha).2.2.1
      · rcases hc with hc | hc
        · subst hc; exact (digit_facts hb).2.2.1
        · simp at hc
    rw [hmid]
    rcases dash_cases hd with h | h <;> subst h
    · rw [if_neg (by decide)]
    · rw [if_pos rfl]
  rw [hrep1, removeChar_cons_keep _ (by decide), removeChar_cons_keep _ hwf.2.1,
    replaceChar_cons, if_neg (by decide), replaceChar_cons, if_neg hwf.1]
  have hchain : replaceChar ',' '.' (removeChar '.' (body ++ ',' :: [a, b])) =
      (body.filter fun c => c != '.') ++ '.' :: [a, b] := by
    have h1 : replaceChar '−' '-' (body ++ ',' :: [a, b]) = body ++ ',' :: [a, b] := by
      refine replaceChar_id ?_
      intro c hc
      simp only [List.mem_append, List.mem_cons] at hc
      rcases hc with hc | hc | hc | hc
      · exact (body_facts (hbody c hc)).2.1
      · subst hc; decide
      · subst hc; exact (digit_facts ha).2.2.1
      · rcases hc with hc | hc
        · subst hc; exact (digit_facts hb).2.2.1
        · simp at hc
    have := chain_suffix hbody ha hb
    rwa [h1] at this
  rw [hchain]
  have hnos2 : pyStrip ('-' :: w :: ((body.filter fun c => c != '.') ++ '.' :: [a, b])) =
      '-' :: w :: ((body.filter fun c => c != '.') ++ '.' :: [a, b]) := by
    have hshape2 : '-' :: w :: ((body.filter fun c => c != '.') ++ '.' :: [a, b]) =
        '-' :: ((w :: ((body.filter fun c => c != '.') ++ ['.', a])) ++ [b]) := by
      simp
    rw [hshape2, pyStrip_sandwich (by decide) (digit_facts hb).2.2.2.2.2, ← hshape2]
  exact pyFloat_dash_space hnos2 (space_not_digit hw) hwf.2.1

theorem mem_descRange {hi lo x : Nat} (h : x ∈ descRange hi lo) : lo ≤ x ∧ x ≤ hi := by
  simp only [descRange, List.mem_map, List.mem_range] at h
  obtain ⟨i, hi2, rfl⟩ := h
  omega

theorem takeWhile_len_le (p : Char → Bool) : ∀ l : List Char, (l.takeWhile p).length ≤ l.length := by
  intro l
  induction l with
  | nil => simp
  | cons c t ih =>
    rw [List.takeWhile_cons]
    by_cases hc : p c = true
    · rw [if_pos hc]; simpa using ih
    · rw [if_neg hc]; simp

theorem mem_take_takeCount {p : Char → Bool} :
    ∀ {cs : List Char} {k : Nat}, k ≤ takeCount p cs → ∀ c ∈ cs.take k, p c = true := by
  intro cs
  induction cs with
  | nil => intro k hk c hc; simp at hc
  | cons x t ih =>
    intro k hk c hc
    cases k with
    | zero => simp at hc
    | succ k =>
      rw [List.take_succ_cons] at hc
      unfold takeCount at hk
      rw [List.takeWhile_cons] at hk
      by_cases hx : p x = true
      · rw [if_pos hx] at hk
        simp only [List.length_cons] at hk
        rcases List.mem_cons.mp hc with rfl | hc2
        · exact hx
        · exact ih (by unfold takeCount; omega) c hc2
      · rw [if_neg hx] at hk
        simp at hk

theorem take_len_of_le_takeCount {p : Char → Bool} {cs : List Char} {k : Nat}
    (hk : k ≤ takeCount p cs) : (cs.take k).length = k := by
  rw [List.length_take]
  have h1 : takeCount p cs ≤ cs.length := takeWhile_len_le p cs
  omega

theorem commaTwo_some {l : List Char} {pr : List Char × List Char}
    (h : commaTwo l = some pr) :
    ∃ a b, pr.1 = ',' :: [a, b] ∧ isDigitB a = true ∧ isDigitB b = true ∧ l = pr.1 ++ pr.2 := by
  match l with
  | [] => exact Option.noConfusion h
  | [c] => exact Option.noConfusion h
  | [c, d] => exact Option.noConfusion h
  | c :: d :: e :: t =>
    rw [show commaTwo (c :: d :: e :: t) =
        (if (decide (c = ',') && isDigitB d && isDigitB e) = true
         then some ([c, d, e], t) else none) from rfl] at h
    by_cases hcond : (decide (c = ',') && isDigitB d && isDigitB e) = true
    · rw [if_pos hcond] at h
      simp only [Option.some.injEq] at h
      simp only [Bool.and_eq_true, decide_eq_true_eq] at hcond
      obtain ⟨⟨hc, hd⟩, he⟩ := hcond
      subst hc
      refine ⟨d, e, ?_, hd, he, ?_⟩
      · rw [← h]
      · rw [← h]
        rfl
    · rw [if_neg hcond] at h
      cases h

theorem mem_take_dotGroups :
    ∀ {n : Nat} {cs : List Char}, n ≤ countDotGroups cs →
      ∀ c ∈ cs.take (4 * n), isDigitB c = true ∨ c = '.' := by
  intro n
  induction n with
  | zero => intro cs h c hc; simp at hc
  | succ n ih =>
    intro cs h c hc
    match cs with
    | [] => rw [show countDotGroups [] = 0 from rfl] at h; omega
    | [x] => rw [show countDotGroups [x] = 0 from rfl] at h; omega
    | [x, y] => rw [show countDotGroups [x, y] = 0 from rfl] at h; omega
    | [x, y, z] => rw [show countDotGroups [x, y, z] = 0 from rfl] at h; omega
    | x :: y :: z :: u :: t =>
      rw [show countDotGroups (x :: y :: z :: u :: t) =
          (if (decide (x = '.') && isDigitB y && isDigitB z && isDigitB u) = true
           then countDotGroups t + 1 else 0) from rfl] at h
      by_cases hcond : (decide (x = '.') && isDigitB y && isDigitB z && isDigitB u) = true
      swap
      · rw [if_neg hcond] at h
        omega
      · rw [if_pos hcond] at h
        simp only [Bool.and_eq_true, decide_eq_true_eq] at hcond
        obtain ⟨⟨⟨hx, hy⟩, hz⟩, hu⟩ := hcond
        subst hx
        have h4 : ('.' :: y :: z :: u :: t).take (4 * (n + 1)) =
            '.' :: y :: z :: u :: t.take (4 * n) := by
          rw [show 4 * (n + 1) = (4 * n + 3) + 1 by omega, List.take_succ_cons,
            show 4 * n + 3 = (4 * n + 2) + 1 by omega, List.take_succ_cons,
            show 4 * n + 2 = (4 * n + 1) + 1 by omega, List.take_succ_cons,
            show 4 * n + 1 = (4 * n) + 1 by omega, List.take_succ_cons]
        rw [h4] at hc
        rcases List.mem_cons.mp hc with rfl | hc
        · exact Or.inr rfl
        rcases List.mem_cons.mp hc with rfl | hc
        · exact Or.inl hy
        rcases List.mem_cons.mp hc with rfl | hc
        · exact Or.inl hz
        rcases List.mem_cons.mp hc with rfl | hc
        · exact Or.inl hu
        · exact ih (by omega) c hc

/-- Every candidate the core amount grammar produces is a canonical body
followed by a comma and two digits. -/
theorem coreCands_shape {cs : List Char} {pr : List Char × List Char} (h : pr ∈ coreCands cs) :
    ∃ body a b, pr.1 = body ++ ',' :: [a, b] ∧
      (∀ c ∈ body, isDigitB c = true ∨ c = '.') ∧
      isDigitB a = true ∧ isDigitB b = true := by
  unfold coreCands at h
  simp only [List.mem_flatMap, List.mem_filterMap, Option.map_eq_some'] at h
  obtain ⟨k, hk, n, hn, pr0, hpr0, hpr⟩ := h
  obtain ⟨a, b, hab, ha, hb, hsplit⟩ := commaTwo_some hpr0
  have hkr := mem_descRange hk
  have hnr := mem_descRange hn
  refine ⟨cs.take k ++ (cs.drop k).take (4 * n), a, b, ?_, ?_, ha, hb⟩
  · rw [← hpr]
    simp [hab, List.append_assoc]
  · intro c hc
    rcases List.mem_append.mp hc with hc | hc
    · exact Or.inl (mem_take_takeCount (le_trans hkr.2 (by simp)) c hc)
    · exact mem_take_dotGroups hnr.2 c hc

/-- Every candidate of the cabal amount grammar likewise. -/
theorem cabalCands_shape {cs : List Char} {pr : String × List Char} (h : pr ∈ cabalCands cs) :
    ∃ body a b, pr.1 = (⟨body ++ ',' :: [a, b]⟩ : String) ∧
      (∀ c ∈ body, isDigitB c = true ∨ c = '.') ∧
      isDigitB a = true ∧ isDigitB b = true := by
  unfold cabalCands at h
  simp only [List.mem_filterMap, Option.map_eq_some'] at h
  obtain ⟨k, hk, pr0, hpr0, hpr⟩ := h
  obtain ⟨a, b, hab, ha, hb, hsplit⟩ := commaTwo_some hpr0
  have hkr := mem_descRange hk
  refine ⟨cs.take k, a, b, ?_, ?_, ha, hb⟩
  · rw [← hpr]
    simp [hab]
  · intro c hc
    have hdd := mem_take_takeCount hkr.2 c hc
    simpa using hdd

theorem optOpts_mem {p : Char → Bool} {cs : List Char} {pr : List Char × List Char}
    (h : pr ∈ optOpts p cs) : pr.1 = [] ∨ ∃ c, pr.1 = [c] ∧ p c = true := by
  match cs with
  | [] =>
    rw [show optOpts p [] = [([], [])] from rfl] at h
    simp only [List.mem_singleton] at h
    rw [h]
    exact Or.inl rfl
  | c :: t =>
    rw [show optOpts p (c :: t) =
        (if p c = true then [([c], t), ([], c :: t)] else [([], c :: t)]) from rfl] at h
    by_cases hc : p c = true
    · rw [if_pos hc] at h
      rcases List.mem_cons.mp h with rfl | h
      · exact Or.inr ⟨c, rfl, hc⟩
      · simp only [List.mem_singleton] at h
        rw [h]
        exact Or.inl rfl
    · rw [if_neg hc] at h
      simp only [List.mem_singleton] at h
      rw [h]
      exact Or.inl rfl

set_option maxHeartbeats 1600000 in
/-- Any optional sign, optional space, and canonical body: every value the
parser can produce is a whole number of cents. -/
theorem capCents_of_shape {sg sp body : List Char} {a b : Char}
    (hsg : sg = [] ∨ ∃ d, sg = [d] ∧ isDashB d = true)
    (hsp : sp = [] ∨ ∃ w, sp = [w] ∧ isSpaceB w = true)
    (hbody : ∀ c ∈ body, isDigitB c = true ∨ c = '.')
    (ha : isDigitB a = true) (hb : isDigitB b = true) :
    CapCents ⟨sg ++ sp ++ (body ++ ',' :: [a, b])⟩ := by
  rcases hsg with rfl | ⟨d, rfl, hd⟩
  · rcases hsp with rfl | ⟨w, rfl, hw⟩
    · intro v hv
      obtain ⟨kk, hkk⟩ := @tfs_canonical_cents [] body a b (Or.inl rfl) hbody ha hb
      simp only [List.nil_append] at hv hkk
      rw [hv] at hkk
      simp only [Option.some.injEq] at hkk
      exact ⟨kk, hkk⟩
    · intro v hv
      simp only [List.nil_append, List.cons_append] at hv
      rw [tfs_cons_space hw] at hv
      obtain ⟨kk, hkk⟩ := @tfs_canonical_cents [] body a b (Or.inl rfl) hbody ha hb
      simp only [List.nil_append] at hkk
      rw [hv] at hkk
      simp only [Option.some.injEq] at hkk
      exact ⟨kk, hkk⟩
  · rcases hsp with rfl | ⟨w, rfl, hw⟩
    · intro v hv
      simp only [List.append_nil, List.cons_append, List.nil_append] at hv
      rcases dash_cases hd with rfl | rfl
      · obtain ⟨kk, hkk⟩ :=
          @tfs_canonical_cents ['-'] body a b (Or.inr (Or.inl rfl)) hbody ha hb
        simp only [List.cons_append, List.nil_append] at hkk
        rw [hv] at hkk
        simp only [Option.some.injEq] at hkk
        exact ⟨kk, hkk⟩
      · obtain ⟨kk, hkk⟩ :=
          @tfs_canonical_cents ['\u2212'] body a b (Or.inr (Or.inr rfl)) hbody ha hb
        simp only [List.cons_append, List.nil_append] at hkk
        rw [hv] at hkk
        simp only [Option.some.injEq] at hkk
        exact ⟨kk, hkk⟩
    · intro v hv
      simp only [List.cons_append, List.nil_append] at hv
      rw [tfs_dash_space_none hd hw hbody ha hb] at hv
      cases hv

/-- The same without the optional space. -/
theorem capCents_of_shape2 {sg body : List Char} {a b : Char}
    (hsg : sg = [] ∨ ∃ d, sg = [d] ∧ isDashB d = true)
    (hbody : ∀ c ∈ body, isDigitB c = true ∨ c = '.')
    (ha : isDigitB a = true) (hb : isDigitB b = true) :
    CapCents ⟨sg ++ (body ++ ',' :: [a, b])⟩ := by
  have h := @capCents_of_shape sg [] body a b hsg (Or.inl rfl) hbody ha hb
  simpa using h

set_option maxHeartbeats 1600000 in
/-- Every amount capture any kind can produce parses, when it parses at all,
to a whole number of cents. -/
theorem amtCandidates_capCents {k : AmtKind} {cs : List Char} :
    ∀ pr ∈ amtCandidates k cs, CapCents pr.1 := by
  intro pr hpr
  cases k with
  | cabal =>
    obtain ⟨body, a, b, hstr, hbody, ha, hb⟩ := cabalCands_shape hpr
    rw [hstr]
    have h := @capCents_of_shape2 [] body a b (Or.inl rfl) hbody ha hb
    simpa using h
  | uniSp =>
    unfold amtCandidates at hpr
    simp only [List.mem_flatMap, List.mem_map] at hpr
    obtain ⟨sg, hsg, sp, hsp, co, hco, hpr⟩ := hpr
    obtain ⟨body, a, b, hco1, hbody, ha, hb⟩ := coreCands_shape hco
    rw [← hpr]
    simp only [hco1]
    exact capCents_of_shape (optOpts_mem hsg) (optOpts_mem hsp) hbody ha hb
  | uniAny =>
    unfold amtCandidates at hpr
    simp only [List.mem_flatMap, List.mem_map] at hpr
    obtain ⟨sg, hsg, co, hco, hpr⟩ := hpr
    obtain ⟨body, a, b, hco1, hbody, ha, hb⟩ := coreCands_shape hco
    rw [← hpr]
    simp only [hco1]
    exact capCents_of_shape2 (optOpts_mem hsg) hbody ha hb
  | uniAscii =>
    unfold amtCandidates at hpr
    simp only [List.mem_flatMap, List.mem_map] at hpr
    obtain ⟨sg, hsg, co, hco, hpr⟩ := hpr
    obtain ⟨body, a, b, hco1, hbody, ha, hb⟩ := coreCands_shape hco
    rw [← hpr]
    simp only [hco1]
    refine capCents_of_shape2 ?_ hbody ha hb
    rcases optOpts_mem hsg with h | ⟨c, hc, hpc⟩
    · exact Or.inl h
    · refine Or.inr ⟨c, hc, ?_⟩
      simp only [decide_eq_true_eq] at hpc
      subst hpc
      decide

theorem findSome?_mem {α β : Type} {f : α → Option β} :
    ∀ {l : List α} {b : β}, l.findSome? f = some b → ∃ a ∈ l, f a = some b := by
  intro l
  induction l with
  | nil => intro b h; simp [List.findSome?_nil] at h
  | cons x t ih =>
    intro b h
    rw [List.findSome?_cons] at h
    cases hx : f x with
    | some v =>
      rw [hx] at h
      simp only [Option.some.injEq] at h
      subst h
      exact ⟨x, by simp, hx⟩
    | none =>
      rw [hx] at h
      simp only at h
      obtain ⟨a, ha, hfa⟩ := ih h
      exact ⟨a, by simp [ha], hfa⟩

/-- Every capture a successful pattern match returns is, when it parses, a
whole number of cents. -/
theorem matchItems_capCents :
    ∀ {its : List Item} {cs : List Char} {cap : String} {rest : List Char},
      matchItems its cs = some (some cap, rest) → CapCents cap := by
  intro its
  induction its with
  | nil =>
    intro cs cap rest h
    rw [show matchItems [] cs = some (none, cs) from rfl] at h
    simp at h
  | cons it rest ih =>
    intro cs cap r h
    cases it with
    | lit ci s =>
      rw [show matchItems (.lit ci s :: rest) cs =
          (match stripLit ci s cs with
           | some cs1 => matchItems rest cs1
           | none => none) from rfl] at h
      cases hs : stripLit ci s cs with
      | some cs1 =>
        rw [hs] at h
        exact ih h
      | none =>
        rw [hs] at h
        cases h
    | cls p lo hi lz =>
      rw [show matchItems (.cls p lo hi lz :: rest) cs =
          (if lo ≤ effMax p hi cs then
            (clsKs lo (effMax p hi cs) lz).findSome? fun k => matchItems rest (cs.drop k)
          else none) from rfl] at h
      by_cases hm : lo ≤ effMax p hi cs
      · rw [if_pos hm] at h
        obtain ⟨k, _, hk⟩ := findSome?_mem h
        exact ih hk
      · rw [if_neg hm] at h
        cases h
    | alt xs ys =>
      rw [show matchItems (.alt xs ys :: rest) cs =
          ((matchSimple simpleFuel xs cs ++ matchSimple simpleFuel ys cs).findSome? fun cs1 =>
            matchItems rest cs1) from rfl] at h
      obtain ⟨cs1, _, hk⟩ := findSome?_mem h
      exact ih hk
    | amt kd =>
      rw [show matchItems (.amt kd :: rest) cs =
          ((amtCandidates kd cs).findSome? fun pr =>
            (matchItems rest pr.2).map fun out => (some pr.1, out.2)) from rfl] at h
      obtain ⟨pr, hpr, hk⟩ := findSome?_mem h
      cases hmi : matchItems rest pr.2 with
      | none =>
        rw [hmi] at hk
        cases hk
      | some out =>
        rw [hmi] at hk
        simp only [Option.map_some', Option.some.injEq, Prod.mk.injEq] at hk
        obtain ⟨h1, _⟩ := hk
        rw [← h1]
        exact amtCandidates_capCents pr hpr

/-- The same for every capture `finditer` collects. -/
theorem findGo_capCents {its : List Item} :
    ∀ {fuel : Nat} {cs : List Char} {cap : String}, cap ∈ findGo its fuel cs → CapCents cap := by
  intro fuel
  induction fuel with
  | zero => intro cs cap h; simp [findGo] at h
  | succ fuel ih =>
    intro cs cap h
    match cs with
    | [] =>
      rw [show findGo its (fuel + 1) [] =
          (match matchItems its [] with
           | some (some c, _) => [c]
           | _ => []) from rfl] at h
      cases hmi : matchItems its [] with
      | none => rw [hmi] at h; cases h
      | some out =>
        obtain ⟨capOpt, rest⟩ := out
        cases capOpt with
        | none => rw [hmi] at h; cases h
        | some c =>
          rw [hmi] at h
          simp only [List.mem_singleton] at h
          subst h
          exact matchItems_capCents hmi
    | c :: t =>
      rw [show findGo its (fuel + 1) (c :: t) =
          (match matchItems its (c :: t) with
           | some (capOpt, rest) =>
              capOpt.toList ++
                (if rest.length < (c :: t).length then findGo its fuel rest
                 else findGo its fuel t)
           | none => findGo its fuel t) from rfl] at h
      cases hmi : matchItems its (c :: t) with
      | none =>
        rw [hmi] at h
        exact ih h
      | some out =>
        obtain ⟨capOpt, rest⟩ := out
        rw [hmi] at h
        simp only [List.mem_append] at h
        rcases h with h | h
        · cases capOpt with
          | none => cases h
          | some c2 =>
            simp only [Option.toList_some, List.mem_singleton] at h
            subst h
            exact matchItems_capCents hmi
        · by_cases hlen : rest.length < (c :: t).length
          · rw [if_pos hlen] at h
            exact ih h
          · rw [if_neg hlen] at h
            exact ih h

theorem findAllCaps_capCents {its : List Item} {s : String} {cap : String}
    (h : cap ∈ findAllCaps its s) : CapCents cap := findGo_capCents h

theorem foldl_parses_cents :
    ∀ {caps : List String} {a : ℚ}, Cents a → (∀ c ∈ caps, CapCents c) →
      ∀ {q : ℚ}, caps.foldlM (fun a c => (to_float_signed c).map (a + ·)) a = some q →
        Cents q := by
  intro caps
  induction caps with
  | nil =>
    intro a ha _ q h
    simp only [List.foldlM_nil, pure, Option.some.injEq] at h
    rw [← h]
    exact ha
  | cons c t ih =>
    intro a ha hcc q h
    rw [List.foldlM_cons] at h
    cases htf : to_float_signed c with
    | none => rw [htf] at h; cases h
    | some v =>
      rw [htf] at h
      simp only [Option.map_some', Option.some_bind] at h
      exact ih (cents_add ha (hcc c (by simp) v htf)) (fun d hd => hcc d (by simp [hd])) h

/-- Any successful per-pattern sum is a whole number of cents. -/
theorem sumParses_cents {its : List Item} {text : String} {q : ℚ}
    (h : sumParses (findAllCaps its text) = some q) : Cents q :=
  foldl_parses_cents cents_zero (fun _ hc => findAllCaps_capCents hc) h

/-- The per-page rounding of `extract_universal` is the identity: every
matched amount has exactly two decimals, so each per-page per-category sum is
already a whole number of cents. -/
theorem extract_universal_eq_raw (t : String) :
    extract_universal t = extract_universal_raw t := by
  unfold extract_universal extract_universal_raw
  cases h1 : sumParses (findAllCaps RX_IVA21_ANY t) with
  | none => rfl
  | some a =>
  cases h2 : sumParses (findAllCaps RX_IVA21_RI_DTO_FOT t) with
  | none => rfl
  | some b =>
  cases h3 : sumParses (findAllCaps RX_IVA21_RI_SERV_INT t) with
  | none => rfl
  | some c =>
  cases h4 : sumParses (findAllCaps RX_IVA105 t) with
  | none => rfl
  | some i =>
  cases h5 : sumParses (findAllCaps RX_PERC_IVA_30 t) with
  | none => rfl
  | some p3 =>
  cases h6 : sumParses (findAllCaps RX_PERC_IVA_15 t) with
  | none => rfl
  | some p1 =>
  cases h7 : sumParses (findAllCaps RX_RET_IIBB t) with
  | none => rfl
  | some rb =>
  cases h8 : sumParses (findAllCaps RX_RET_IVA t) with
  | none => rfl
  | some rv =>
  cases h9 : sumParses (findAllCaps RX_RET_GCIAS t) with
  | none => rfl
  | some rg =>
  show some (⟨round2 (a + b + c), round2 i, round2 p3, round2 p1, round2 rb, round2 rv,
      round2 rg⟩ : UniTot) = some ⟨a + b + c, i, p3, p1, rb, rv, rg⟩
  simp only [Option.some.injEq, UniTot.mk.injEq]
  exact ⟨round2_cents (cents_add (cents_add (sumParses_cents h1) (sumParses_cents h2))
      (sumParses_cents h3)), round2_cents (sumParses_cents h4),
    round2_cents (sumParses_cents h5), round2_cents (sumParses_cents h6),
    round2_cents (sumParses_cents h7), round2_cents (sumParses_cents h8),
    round2_cents (sumParses_cents h9)⟩

theorem stepPage_eq_raw : stepPage = stepPageRaw := by
  funext acc page
  unfold stepPage stepPageRaw
  simp only [extract_universal_eq_raw]

theorem accumulate_eq_raw (pages : List String) : accumulate pages = accumulateRaw pages := by
  unfold accumulate accumulateRaw
  rw [stepPage_eq_raw]

theorem summarize_true (ct : CabalTot) (ut : UniTot) :
    summarize (true, ct, ut) =
      ⟨conceptosList,
       [if round2 ct.iva_arancel ≠ 0 then round2 (round2 ct.iva_arancel / 0.21) else 0,
        round2 ct.iva_arancel,
        if round2 ct.iva_costo ≠ 0 then round2 (round2 ct.iva_costo / 0.105) else 0,
        round2 ct.iva_costo, round2 ct.percep_rg333, round2 ct.ret_iibb, 0, 0]⟩ := rfl

theorem summarize_false (ct : CabalTot) (ut : UniTot) :
    summarize (false, ct, ut) =
      ⟨conceptosList,
       [if round2 ut.iva21 ≠ 0 then round2 (round2 ut.iva21 / 0.21) else 0,
        round2 ut.iva21,
        if round2 ut.iva105 ≠ 0 then round2 (round2 ut.iva105 / 0.105) else 0,
        round2 ut.iva105, round2 (ut.perc_30 + ut.perc_15), round2 ut.ret_iibb,
        round2 ut.ret_iva, round2 ut.ret_gcias]⟩ := rfl

theorem montoOf_base21 (m0 m1 m2 m3 m4 m5 m6 m7 : ℚ) :
    montoOf ⟨conceptosList, [m0, m1, m2, m3, m4, m5, m6, m7]⟩ "Base Neto 21%" = some m0 := rfl

theorem montoOf_iva21 (m0 m1 m2 m3 m4 m5 m6 m7 : ℚ) :
    montoOf ⟨conceptosList, [m0, m1, m2, m3, m4, m5, m6, m7]⟩ "IVA 21% (Total)" = some m1 := rfl

theorem montoOf_base105 (m0 m1 m2 m3 m4 m5 m6 m7 : ℚ) :
    montoOf ⟨conceptosList, [m0, m1, m2, m3, m4, m5, m6, m7]⟩ "Base Neto 10,5%" = some m2 := rfl

theorem montoOf_iva105 (m0 m1 m2 m3 m4 m5 m6 m7 : ℚ) :
    montoOf ⟨conceptosList, [m0, m1, m2, m3, m4, m5, m6, m7]⟩ "IVA 10,5% (Total)" = some m3 :=
  rfl

theorem montoOf_percep (m0 m1 m2 m3 m4 m5 m6 m7 : ℚ) :
    montoOf ⟨conceptosList, [m0, m1, m2, m3, m4, m5, m6, m7]⟩ "Percepciones IVA (Total)" =
      some m4 := rfl

theorem montoOf_retIibb (m0 m1 m2 m3 m4 m5 m6 m7 : ℚ) :
    montoOf ⟨conceptosList, [m0, m1, m2, m3, m4, m5, m6, m7]⟩ "Retenciones IBB" = some m5 := rfl

theorem montoOf_retIva (m0 m1 m2 m3 m4 m5 m6 m7 : ℚ) :
    montoOf ⟨conceptosList, [m0, m1, m2, m3, m4, m5, m6, m7]⟩ "Retenciones IVA" = some m6 := rfl

theorem montoOf_retGcias (m0 m1 m2 m3 m4 m5 m6 m7 : ℚ) :
    montoOf ⟨conceptosList, [m0, m1, m2, m3, m4, m5, m6, m7]⟩ "Retenciones Ganancias" =
      some m7 := rfl

/-- One step of the page loop, characterized: a parse error propagates,
a page with a non-zero Cabal value adds its Cabal totals and sets the flag,
and any other page adds its universal totals. -/
theorem stepPage_char {a : Bool × CabalTot × UniTot} {p : String}
    {a1 : Bool × CabalTot × UniTot} (hs : stepPage a p = some a1) :
    (isCabalPage p = true ∧ a1 = (true, addC a.2.1 (pageCabal p), a.2.2)) ∨
    (isCabalPage p = false ∧ a1 = (a.1, a.2.1, addU a.2.2 (pageUni p))) := by
  unfold stepPage at hs
  have hs0 : (do
      let pc ← extract_cabal_exact (pre p)
      if cabalNZ pc then (pure (true, addC a.2.1 pc, a.2.2) : Option (Bool × CabalTot × UniTot))
      else do
        let pu ← extract_universal (pre p)
        pure (a.1, a.2.1, addU a.2.2 pu)) = some a1 := hs
  clear hs
  cases hc : extract_cabal_exact (pre p) with
  | none => rw [hc] at hs0; cases hs0
  | some pc =>
    rw [hc] at hs0
    have hpc : pageCabal p = pc := by unfold pageCabal; rw [hc]; rfl
    have hs2 : (if cabalNZ pc then (some (true, addC a.2.1 pc, a.2.2) : Option _)
        else do
          let pu ← extract_universal (pre p)
          pure (a.1, a.2.1, addU a.2.2 pu)) = some a1 := hs0
    by_cases hnz : cabalNZ pc
    · rw [if_pos hnz] at hs2
      refine Or.inl ⟨?_, ?_⟩
      · unfold isCabalPage
        rw [hc]
        simpa using hnz
      · rw [hpc, (Option.some.inj hs2)]
    · rw [if_neg hnz] at hs2
      cases hu : extract_universal (pre p) with
      | none =>
        rw [hu] at hs2
        exact Option.noConfusion hs2
      | some pu =>
        rw [hu] at hs2
        have hs3 : some (a.1, a.2.1, addU a.2.2 pu) = some a1 := hs2
        refine Or.inr ⟨?_, ?_⟩
        · unfold isCabalPage
          rw [hc]
          simpa using hnz
        · have hpu : pageUni p = pu := by unfold pageUni; rw [hu]; rfl
          rw [hpu, (Option.some.inj hs3)]

/-- The page loop, characterized: the flag is whether any page went Cabal,
and the two accumulators are pointwise sums over the two disjoint page
classes: every page is counted under exactly one strategy. -/
theorem accumulate_go :
    ∀ {pages : List String} {a : Bool × CabalTot × UniTot} {out : Bool × CabalTot × UniTot},
      pages.foldlM stepPage a = some out →
        out.1 = (a.1 || pages.any isCabalPage) ∧
        out.2.1 = (pages.filter isCabalPage).foldl (fun x p => addC x (pageCabal p)) a.2.1 ∧
        out.2.2 = (pages.filter fun p => !isCabalPage p).foldl
          (fun x p => addU x (pageUni p)) a.2.2 := by
  intro pages
  induction pages with
  | nil =>
    intro a out h
    have h2 : some a = some out := h
    rw [← Option.some.inj h2]
    simp
  | cons p t ih =>
    intro a out h
    rw [List.foldlM_cons] at h
    cases hs : stepPage a p with
    | none => rw [hs] at h; cases h
    | some a1 =>
      rw [hs] at h
      have h2 : t.foldlM stepPage a1 = some out := h
      obtain ⟨o1, o2, o3⟩ := ih h2
      rcases stepPage_char hs with ⟨hcp, ha1⟩ | ⟨hcp, ha1⟩
      · subst ha1
        refine ⟨?_, ?_, ?_⟩
        · rw [o1]
          simp [List.any_cons, hcp]
        · rw [o2, List.filter_cons, if_pos (by simp [hcp])]
          rfl
        · rw [o3, List.filter_cons, if_neg (by simp [hcp])]
      · subst ha1
        refine ⟨?_, ?_, ?_⟩
        · rw [o1]
          simp [List.any_cons, hcp]
        · rw [o2, List.filter_cons, if_neg (by simp [hcp])]
        · rw [o3, List.filter_cons, if_pos (by simp [hcp])]
          rfl

/-- `accumulate`, characterized from the zero start. -/
theorem accumulate_char {pages : List String} {saw : Bool} {ct : CabalTot} {ut : UniTot}
    (h : accumulate pages = some (saw, ct, ut)) :
    saw = pages.any isCabalPage ∧ ct = sumCabal (pages.filter isCabalPage) ∧
      ut = sumUni (pages.filter fun p => !isCabalPage p) := by
  have h2 := accumulate_go h
  simp only [Bool.false_or] at h2
  exact ⟨h2.1, h2.2.1, h2.2.2⟩

theorem addC_zero_left (x : CabalTot) : addC cabalZero x = x := by
  cases x
  simp [addC, cabalZero]

theorem addU_zero_left (x : UniTot) : addU uniZero x = x := by
  cases x
  simp [addU, uniZero]

theorem addU_zero_right (x : UniTot) : addU x uniZero = x := by
  cases x
  simp [addU, uniZero]

theorem addC_zero_right (x : CabalTot) : addC x cabalZero = x := by
  cases x
  simp [addC, cabalZero]

theorem foldl_addU_all_zero :
    ∀ {l : List String} {x : UniTot}, (∀ p ∈ l, pageUni p = uniZero) →
      l.foldl (fun a p => addU a (pageUni p)) x = x := by
  intro l
  induction l with
  | nil => intro x _; rfl
  | cons p t ih =>
    intro x h
    rw [List.foldl_cons, h p (by simp), addU_zero_right]
    exact ih fun q hq => h q (by simp [hq])

/-- A successful document run exposes its accumulator and summary. -/
theorem extract_resumen_cases {pages : List String} {r : Resumen}
    (h : extract_resumen pages = some r) :
    ∃ saw ct ut, accumulate pages = some (saw, ct, ut) ∧ r = summarize (saw, ct, ut) := by
  unfold extract_resumen at h
  cases ha : accumulate pages with
  | none => rw [ha] at h; cases h
  | some acc =>
    rw [ha] at h
    simp only [Option.map_some', Option.some.injEq] at h
    obtain ⟨saw, ct, ut⟩ := acc
    exact ⟨saw, ct, ut, rfl, h.symm⟩

theorem coreCands_split {cs : List Char} {pr : List Char × List Char}
    (h : pr ∈ coreCands cs) : cs = pr.1 ++ pr.2 := by
  unfold coreCands at h
  simp only [List.mem_flatMap, List.mem_filterMap, Option.map_eq_some'] at h
  obtain ⟨k, hk, n, hn, pr0, hpr0, hpr⟩ := h
  obtain ⟨a, b, hab, ha, hb, hsplit⟩ := commaTwo_some hpr0
  rw [← hpr]
  conv_lhs => rw [← List.take_append_drop k cs, ← List.take_append_drop (4 * n) (cs.drop k)]
  rw [hsplit]
  simp [List.append_assoc]

/-- A string in the amount grammar always parses, to a whole number of
cents. -/
theorem amountShape_parses {s : String} (h : amountShape s = true) :
    ∃ k : ℤ, to_float_signed s = some ((k : ℚ) / 100) := by
  cases hsd : s.data with
  | nil =>
    unfold amountShape at h
    rw [hsd] at h
    cases h
  | cons c t =>
    unfold amountShape at h
    rw [hsd] at h
    have hse : s = ⟨c :: t⟩ := String.ext hsd
    have h2 : (if c = '-' then (coreCands t).any fun pr => pr.2.isEmpty
        else (coreCands (c :: t)).any fun pr => pr.2.isEmpty) = true := h
    by_cases hc : c = '-'
    · rw [if_pos hc] at h2
      obtain ⟨pr, hm, he⟩ := List.any_eq_true.mp h2
      obtain ⟨body, a, b, hb1, hbody, ha, hb⟩ := coreCands_shape hm
      have hsp := coreCands_split hm
      rw [List.isEmpty_iff.mp he, List.append_nil] at hsp
      subst hc
      obtain ⟨k, hk⟩ := @tfs_canonical_cents ['-'] body a b (Or.inr (Or.inl rfl)) hbody ha hb
      refine ⟨k, ?_⟩
      rw [hse, show (⟨'-' :: t⟩ : String) = ⟨['-'] ++ (body ++ ',' :: [a, b])⟩ by
        rw [hsp, hb1]; rfl]
      exact hk
    · rw [if_neg hc] at h2
      obtain ⟨pr, hm, he⟩ := List.any_eq_true.mp h2
      obtain ⟨body, a, b, hb1, hbody, ha, hb⟩ := coreCands_shape hm
      have hsp := coreCands_split hm
      rw [List.isEmpty_iff.mp he, List.append_nil] at hsp
      obtain ⟨k, hk⟩ := @tfs_canonical_cents [] body a b (Or.inl rfl) hbody ha hb
      refine ⟨k, ?_⟩
      rw [hse, show (⟨c :: t⟩ : String) = ⟨[] ++ (body ++ ',' :: [a, b])⟩ by
        rw [hsp, hb1]; rfl]
      exact hk

/-- A successful universal extraction, with its nine per-pattern sums. -/
theorem extract_universal_fields {t : String} {u : UniTot} (h : extract_universal t = some u) :
    ∃ a b c i p3 p1 rb rv rg,
      sumParses (findAllCaps RX_IVA21_ANY t) = some a ∧
      sumParses (findAllCaps RX_IVA21_RI_DTO_FOT t) = some b ∧
      sumParses (findAllCaps RX_IVA21_RI_SERV_INT t) = some c ∧
      sumParses (findAllCaps RX_IVA105 t) = some i ∧
      sumParses (findAllCaps RX_PERC_IVA_30 t) = some p3 ∧
      sumParses (findAllCaps RX_PERC_IVA_15 t) = some p1 ∧
      sumParses (findAllCaps RX_RET_IIBB t) = some rb ∧
      sumParses (findAllCaps RX_RET_IVA t) = some rv ∧
      sumParses (findAllCaps RX_RET_GCIAS t) = some rg ∧
      u = ⟨round2 (a + b + c), round2 i, round2 p3, round2 p1, round2 rb, round2 rv,
        round2 rg⟩ := by
  unfold extract_universal at h
  cases h1 : sumParses (findAllCaps RX_IVA21_ANY t) with
  | none => rw [h1] at h; exact Option.noConfusion h
  | some a =>
  rw [h1] at h
  cases h2 : sumParses (findAllCaps RX_IVA21_RI_DTO_FOT t) with
  | none => rw [h2] at h; exact Option.noConfusion h
  | some b =>
  rw [h2] at h
  cases h3 : sumParses (findAllCaps RX_IVA21_RI_SERV_INT t) with
  | none => rw [h3] at h; exact Option.noConfusion h
  | some c =>
  rw [h3] at h
  cases h4 : sumParses (findAllCaps RX_IVA105 t) with
  | none => rw [h4] at h; exact Option.noConfusion h
  | some i =>
  rw [h4] at h
  cases h5 : sumParses (findAllCaps RX_PERC_IVA_30 t) with
  | none => rw [h5] at h; exact Option.noConfusion h
  | some p3 =>
  rw [h5] at h
  cases h6 : sumParses (findAllCaps RX_PERC_IVA_15 t) with
  | none => rw [h6] at h; exact Option.noConfusion h
  | some p1 =>
  rw [h6] at h
  cases h7 : sumParses (findAllCaps RX_RET_IIBB t) with
  | none => rw [h7] at h; exact Option.noConfusion h
  | some rb =>
  rw [h7] at h
  cases h8 : sumParses (findAllCaps RX_RET_IVA t) with
  | none => rw [h8] at h; exact Option.noConfusion h
  | some rv =>
  rw [h8] at h
  cases h9 : sumParses (findAllCaps RX_RET_GCIAS t) with
  | none => rw [h9] at h; exact Option.noConfusion h
  | some rg =>
  rw [h9] at h
  have h10 : some (⟨round2 (a + b + c), round2 i, round2 p3, round2 p1, round2 rb, round2 rv,
      round2 rg⟩ : UniTot) = some u := h
  exact ⟨a, b, c, i, p3, p1, rb, rv, rg, rfl, rfl, rfl, rfl, rfl, rfl, rfl, rfl, rfl,
    (Option.some.inj h10).symm⟩

/-! ## Lemmas: decimal formatting -/

theorem natVal_go (l : List Char) :
    ∀ a : Nat, l.foldl (fun a c => a * 10 + digitVal c) a = a * 10 ^ l.length + natVal l := by
  induction l with
  | nil => intro a; simp [natVal]
  | cons c t ih =>
    intro a
    rw [List.foldl_cons, ih]
    have hv : natVal (c :: t) = digitVal c * 10 ^ t.length + natVal t := by
      have h0 := ih (0 * 10 + digitVal c)
      unfold natVal
      rw [List.foldl_cons]
      unfold natVal at h0
      rw [h0]
      ring
    rw [hv, List.length_cons]
    ring

theorem natVal_append (xs ys : List Char) :
    natVal (xs ++ ys) = natVal xs * 10 ^ ys.length + natVal ys := by
  unfold natVal
  rw [List.foldl_append]
  exact natVal_go ys (List.foldl _ 0 xs)

theorem digitChar_lt {d : Nat} (h : d < 10) :
    isDigitB (Char.ofNat (48 + d)) = true ∧ digitVal (Char.ofNat (48 + d)) = d := by
  interval_cases d <;> exact ⟨by decide, by decide⟩

theorem digit_notX {c : Char} (h : isDigitB c = true) : c ≠ 'X' := by
  intro he
  rw [he] at h
  exact absurd h (by decide)

theorem ndg_zero (fuel : Nat) (acc : List Char) : natDigitsGo fuel 0 acc = acc := by
  cases fuel <;> rfl

theorem ndg_succ (fuel n : Nat) (acc : List Char) :
    natDigitsGo (fuel + 1) n acc =
      if n = 0 then acc else natDigitsGo fuel (n / 10) (Char.ofNat (48 + n % 10) :: acc) := rfl

theorem ndg_append (fuel : Nat) :
    ∀ (n : Nat) (acc : List Char), natDigitsGo fuel n acc = natDigitsGo fuel n [] ++ acc := by
  induction fuel with
  | zero => intro n acc; rfl
  | succ fuel ih =>
    intro n acc
    rw [ndg_succ, ndg_succ]
    by_cases h : n = 0
    · simp [h]
    · rw [if_neg h, if_neg h, ih (n / 10) (Char.ofNat (48 + n % 10) :: acc),
        ih (n / 10) [Char.ofNat (48 + n % 10)], List.append_assoc]
      rfl

theorem ndg_mem (fuel : Nat) :
    ∀ (n : Nat) (acc : List Char) (c : Char), c ∈ natDigitsGo fuel n acc →
      c ∈ acc ∨ ∃ d, d < 10 ∧ c = Char.ofNat (48 + d) := by
  induction fuel with
  | zero => intro n acc c hc; exact Or.inl hc
  | succ fuel ih =>
    intro n acc c hc
    rw [ndg_succ] at hc
    by_cases h : n = 0
    · rw [if_pos h] at hc; exact Or.inl hc
    · rw [if_neg h] at hc
      rcases ih (n / 10) _ c hc with hm | hm
      · rcases List.mem_cons.mp hm with hm | hm
        · exact Or.inr ⟨n % 10, Nat.mod_lt _ (by norm_num), hm⟩
        · exact Or.inl hm
      · exact Or.inr hm

theorem natDigits_mem {m : Nat} {c : Char} (hc : c ∈ natDigits m) :
    ∃ d, d < 10 ∧ c = Char.ofNat (48 + d) := by
  unfold natDigits at hc
  by_cases h : m = 0
  · rw [if_pos h] at hc
    simp at hc
    exact ⟨0, by norm_num, by rw [hc]⟩
  · rw [if_neg h] at hc
    rcases ndg_mem (m + 1) m [] c hc with hm | hm
    · simp at hm
    · exact hm

theorem natDigits_digits {m : Nat} {c : Char} (hc : c ∈ natDigits m) : isDigitB c = true := by
  obtain ⟨d, hd, rfl⟩ := natDigits_mem hc
  exact (digitChar_lt hd).1

theorem ndg_val (fuel : Nat) :
    ∀ n : Nat, n ≠ 0 → n ≤ fuel → natVal (natDigitsGo fuel n []) = n := by
  induction fuel with
  | zero => intro n h0 hle; omega
  | succ fuel ih =>
    intro n h0 hle
    rw [ndg_succ, if_neg h0, ndg_append, natVal_append]
    have hm10 : n % 10 < 10 := Nat.mod_lt _ (by norm_num)
    have hch : natVal [Char.ofNat (48 + n % 10)] = n % 10 := by
      show 0 * 10 + digitVal (Char.ofNat (48 + n % 10)) = n % 10
      rw [(digitChar_lt hm10).2]
      omega
    rw [hch]
    by_cases h10 : n / 10 = 0
    · rw [h10, ndg_zero]
      have : natVal ([] : List Char) = 0 := rfl
      rw [this]
      omega
    · have hdlt : n / 10 < n := Nat.div_lt_self (by omega) (by norm_num)
      rw [ih (n / 10) h10 (by omega)]
      simp
      omega

theorem natDigits_val (m : Nat) : natVal (natDigits m) = m := by
  unfold natDigits
  by_cases h : m = 0
  · rw [if_pos h, h]; rfl
  · rw [if_neg h]
    exact ndg_val (m + 1) m h (by omega)

theorem grpRev_four (sep a b c d : Char) (rest : List Char) :
    grpRev sep (a :: b :: c :: d :: rest) = a :: b :: c :: sep :: grpRev sep (d :: rest) := rfl

theorem grpRev_map (g : Char → Char) (sep : Char) :
    ∀ (N : Nat) (l : List Char), l.length ≤ N → (∀ c ∈ l, g c = c) →
      (grpRev sep l).map g = grpRev (g sep) l := by
  intro N
  induction N with
  | zero =>
    intro l hl _
    rw [List.eq_nil_of_length_eq_zero (Nat.le_zero.mp hl)]
    rfl
  | succ N ih =>
    intro l hl hg
    rcases l with _ | ⟨a, _ | ⟨b, _ | ⟨c, _ | ⟨d, rest⟩⟩⟩⟩
    · rfl
    · simp only [grpRev, List.map_cons, List.map_nil, hg a (by simp)]
    · simp only [grpRev, List.map_cons, List.map_nil, hg a (by simp), hg b (by simp)]
    · simp only [grpRev, List.map_cons, List.map_nil, hg a (by simp), hg b (by simp),
        hg c (by simp)]
    · rw [grpRev_four, grpRev_four]
      simp only [List.map_cons]
      rw [hg a (by simp), hg b (by simp), hg c (by simp),
        ih (d :: rest) (by simp at hl ⊢; omega) (fun e he => hg e (by simp [he]))]

theorem grpRev_filter (sep : Char) :
    ∀ (N : Nat) (l : List Char), l.length ≤ N → (∀ c ∈ l, c ≠ sep) →
      (grpRev sep l).filter (· != sep) = l := by
  intro N
  induction N with
  | zero =>
    intro l hl _
    rw [List.eq_nil_of_length_eq_zero (Nat.le_zero.mp hl)]
    rfl
  | succ N ih =>
    intro l hl hg
    rcases l with _ | ⟨a, _ | ⟨b, _ | ⟨c, _ | ⟨d, rest⟩⟩⟩⟩
    · rfl
    · simp [grpRev, List.filter_cons, hg a (by simp)]
    · simp [grpRev, List.filter_cons, hg a (by simp), hg b (by simp)]
    · simp [grpRev, List.filter_cons, hg a (by simp), hg b (by simp), hg c (by simp)]
    · rw [grpRev_four]
      simp only [List.filter_cons]
      have hss : (sep != sep) = false := by simp
      simp only [hss, bne_iff_ne, ne_eq, hg a (by simp), hg b (by simp), hg c (by simp),
        if_true, if_false]
      rw [ih (d :: rest) (by simp at hl ⊢; omega) (fun e he => hg e (by simp [he]))]
      simp [hg a (by simp), hg b (by simp), hg c (by simp)]

theorem grpRev_mem (sep : Char) :
    ∀ (N : Nat) (l : List Char) (c : Char), l.length ≤ N → c ∈ grpRev sep l →
      c = sep ∨ c ∈ l := by
  intro N
  induction N with
  | zero =>
    intro l c hl hc
    rw [List.eq_nil_of_length_eq_zero (Nat.le_zero.mp hl)] at hc
    have h0 : grpRev sep [] = [] := rfl
    rw [h0] at hc
    simp at hc
  | succ N ih =>
    intro l c hl hc
    rcases l with _ | ⟨a, _ | ⟨b, _ | ⟨x, _ | ⟨d, rest⟩⟩⟩⟩
    · have h0 : grpRev sep [] = [] := rfl
      rw [h0] at hc
      simp at hc
    · exact Or.inr hc
    · exact Or.inr hc
    · exact Or.inr hc
    · rw [grpRev_four] at hc
      simp only [List.mem_cons] at hc
      rcases hc with h | h | h | h | h
      · exact Or.inr (by simp [h])
      · exact Or.inr (by simp [h])
      · exact Or.inr (by simp [h])
      · exact Or.inl h
      · rcases ih (d :: rest) c (by simp at hl ⊢; omega) h with h2 | h2
        · exact Or.inl h2
        · simp only [List.mem_cons] at h2 ⊢
          tauto

theorem group3_mem {sep c : Char} {l : List Char} (hc : c ∈ group3 sep l) :
    c = sep ∨ c ∈ l := by
  unfold group3 at hc
  rw [List.mem_reverse] at hc
  rcases grpRev_mem sep l.reverse.length l.reverse c le_rfl hc with h | h
  · exact Or.inl h
  · exact Or.inr (List.mem_reverse.mp h)

theorem replaceChar_group3 {a b sep : Char} {D : List Char} (h : ∀ c ∈ D, c ≠ a) :
    replaceChar a b (group3 sep D) = group3 (if sep = a then b else sep) D := by
  show (group3 sep D).map (fun c => if c = a then b else c) = _
  unfold group3
  rw [List.map_reverse, grpRev_map (fun c => if c = a then b else c) sep D.reverse.length
    D.reverse le_rfl (fun c hc => if_neg (h c (List.mem_reverse.mp hc)))]

theorem removeChar_group3 {sep : Char} {D : List Char} (h : ∀ c ∈ D, c ≠ sep) :
    removeChar sep (group3 sep D) = D := by
  show (group3 sep D).filter (· != sep) = D
  unfold group3
  rw [List.filter_reverse, grpRev_filter sep D.reverse.length D.reverse le_rfl
    (fun c hc => h c (List.mem_reverse.mp hc)), List.reverse_reverse]

theorem pyFloat_canonical_pos {bodyD : List Char} {a b : Char}
    (hbody : ∀ c ∈ bodyD, isDigitB c = true)
    (ha : isDigitB a = true) (hb : isDigitB b = true) :
    pyFloat (bodyD ++ '.' :: [a, b]) = some ((natVal (bodyD ++ [a, b]) : ℚ) / 100) := by
  have hnos : ∀ c ∈ bodyD ++ '.' :: [a, b], isSpaceB c = false := by
    intro c hc
    simp only [List.mem_append, List.mem_cons] at hc
    rcases hc with hc | hc | hc | hc | hc
    · exact (digit_facts (hbody c hc)).2.2.2.2.2
    · subst hc; decide
    · subst hc; exact (digit_facts ha).2.2.2.2.2
    · subst hc; exact (digit_facts hb).2.2.2.2.2
    · simp at hc
  have hd1 : (bodyD ++ '.' :: [a, b]).takeWhile isDigitB = bodyD :=
    takeWhile_all_append hbody (by decide)
  have hr1 : (bodyD ++ '.' :: [a, b]).dropWhile isDigitB = '.' :: [a, b] :=
    dropWhile_all_append hbody (by decide)
  have hab : ∀ c ∈ ([a, b] : List Char), isDigitB c = true := by
    intro c hc
    rcases List.mem_cons.mp hc with h | h
    · subst h; exact ha
    · rcases List.mem_cons.mp h with h | h
      · subst h; exact hb
      · simp at h
  have hd2 : ([a, b] : List Char).takeWhile isDigitB = [a, b] := takeWhile_all hab
  have hr2 : ([a, b] : List Char).dropWhile isDigitB = [] := dropWhile_all hab
  have hsign : pySign (bodyD ++ '.' :: [a, b]) = (false, bodyD ++ '.' :: [a, b]) := by
    cases hbd : bodyD with
    | nil => simp only [List.nil_append]; exact pySign_other _ (by decide) (by decide)
    | cons d0 bt =>
      have hd0 : isDigitB d0 = true := hbody d0 (by rw [hbd]; simp)
      simp only [List.cons_append]
      rw [pySign_other _ (digit_facts hd0).2.2.2.1 (digit_facts hd0).2.2.2.2.1]
  unfold pyFloat
  rw [pyStrip_no_space hnos]
  simp only [hsign, hd1, hr1, hd2, hr2]
  norm_num

theorem pyFloat_canonical_neg {bodyD : List Char} {a b : Char}
    (hbody : ∀ c ∈ bodyD, isDigitB c = true)
    (ha : isDigitB a = true) (hb : isDigitB b = true) :
    pyFloat ('-' :: (bodyD ++ '.' :: [a, b])) =
      some (-((natVal (bodyD ++ [a, b]) : ℚ) / 100)) := by
  have hnos : ∀ c ∈ '-' :: (bodyD ++ '.' :: [a, b]), isSpaceB c = false := by
    intro c hc
    simp only [List.mem_cons, List.mem_append, List.mem_cons] at hc
    rcases hc with hc | hc | hc | hc | hc | hc
    · subst hc; decide
    · exact (digit_facts (hbody c hc)).2.2.2.2.2
    · subst hc; decide
    · subst hc; exact (digit_facts ha).2.2.2.2.2
    · subst hc; exact (digit_facts hb).2.2.2.2.2
    · simp at hc
  have hd1 : (bodyD ++ '.' :: [a, b]).takeWhile isDigitB = bodyD :=
    takeWhile_all_append hbody (by decide)
  have hr1 : (bodyD ++ '.' :: [a, b]).dropWhile isDigitB = '.' :: [a, b] :=
    dropWhile_all_append hbody (by decide)
  have hab : ∀ c ∈ ([a, b] : List Char), isDigitB c = true := by
    intro c hc
    rcases List.mem_cons.mp hc with h | h
    · subst h; exact ha
    · rcases List.mem_cons.mp h with h | h
      · subst h; exact hb
      · simp at h
  have hd2 : ([a, b] : List Char).takeWhile isDigitB = [a, b] := takeWhile_all hab
  have hr2 : ([a, b] : List Char).dropWhile isDigitB = [] := dropWhile_all hab
  unfold pyFloat
  rw [pyStrip_no_space hnos]
  simp only [pySign_dash, hd1, hr1, hd2, hr2]
  norm_num

theorem fmtComma2_eq (x : ℚ) :
    (fmtComma2 x).data =
      (if x < 0 then ['-'] else []) ++
        (group3 ',' (natDigits ((rhe (x * 100)).natAbs / 100)) ++
          '.' :: [Char.ofNat (48 + (rhe (x * 100)).natAbs % 100 / 10),
            Char.ofNat (48 + (rhe (x * 100)).natAbs % 100 % 10)]) := by
  by_cases hx : x < 0 <;> simp [fmtComma2, hx]

theorem tfs_format_normalize {D : List Char} {c1 c2 : Char} (sg : List Char)
    (hsg : sg = [] ∨ sg = ['-'])
    (hD : ∀ c ∈ D, isDigitB c = true) (h1 : isDigitB c1 = true) (h2 : isDigitB c2 = true) :
    replaceChar ',' '.' (removeChar '.' (replaceChar '−' '-' (pyStrip
      (replaceChar 'X' '.' (replaceChar '.' ',' (replaceChar ',' 'X'
        (sg ++ (group3 ',' D ++ '.' :: [c1, c2]))))))))
    = sg ++ (D ++ '.' :: [c1, c2]) := by
  have hsgc : ∀ c ∈ sg, c = '-' := by rcases hsg with rfl | rfl <;> simp
  have hsgX : ∀ a : Char, a ≠ '-' → ∀ c ∈ sg, c ≠ a := fun a ha c hc => by
    rw [hsgc c hc]
    exact fun he => ha he.symm
  have hDc : ∀ c ∈ D, c ≠ ',' := fun c hc => (digit_facts (hD c hc)).1
  have hDd : ∀ c ∈ D, c ≠ '.' := fun c hc => (digit_facts (hD c hc)).2.1
  have hDx : ∀ c ∈ D, c ≠ 'X' := fun c hc => digit_notX (hD c hc)
  have h1c : c1 ≠ ',' := (digit_facts h1).1
  have h2c : c2 ≠ ',' := (digit_facts h2).1
  have h1d : c1 ≠ '.' := (digit_facts h1).2.1
  have h2d : c2 ≠ '.' := (digit_facts h2).2.1
  have h1x : c1 ≠ 'X' := digit_notX h1
  have h2x : c2 ≠ 'X' := digit_notX h2
  have g1 : (if (',' : Char) = ',' then 'X' else ',') = 'X' := rfl
  have g2 : (if ('X' : Char) = '.' then ',' else 'X') = 'X' := rfl
  have g3 : (if ('X' : Char) = 'X' then '.' else 'X') = '.' := rfl
  have ht1 : replaceChar ',' 'X' (sg ++ (group3 ',' D ++ '.' :: [c1, c2])) =
      sg ++ (group3 'X' D ++ '.' :: [c1, c2]) := by
    rw [replaceChar_append, replaceChar_append, replaceChar_id (hsgX ',' (by decide)),
      replaceChar_group3 hDc, g1, replaceChar_cons,
      if_neg (show ('.' : Char) ≠ ',' by decide), replaceChar_cons,
      if_neg h1c, replaceChar_cons, if_neg h2c]
    rfl
  have ht2 : replaceChar '.' ',' (sg ++ (group3 'X' D ++ '.' :: [c1, c2])) =
      sg ++ (group3 'X' D ++ ',' :: [c1, c2]) := by
    rw [replaceChar_append, replaceChar_append, replaceChar_id (hsgX '.' (by decide)),
      replaceChar_group3 hDd, g2, replaceChar_cons, if_pos rfl, replaceChar_cons,
      if_neg h1d, replaceChar_cons, if_neg h2d]
    rfl
  have ht3 : replaceChar 'X' '.' (sg ++ (group3 'X' D ++ ',' :: [c1, c2])) =
      sg ++ (group3 '.' D ++ ',' :: [c1, c2]) := by
    rw [replaceChar_append, replaceChar_append, replaceChar_id (hsgX 'X' (by decide)),
      replaceChar_group3 hDx, g3, replaceChar_cons,
      if_neg (show (',' : Char) ≠ 'X' by decide), replaceChar_cons,
      if_neg h1x, replaceChar_cons, if_neg h2x]
    rfl
  rw [ht1, ht2, ht3]
  have hmem : ∀ c ∈ sg ++ (group3 '.' D ++ ',' :: [c1, c2]),
      c = '-' ∨ c = '.' ∨ c = ',' ∨ isDigitB c = true := by
    intro c hc
    rcases List.mem_append.mp hc with hc | hc
    · exact Or.inl (hsgc c hc)
    · rcases List.mem_append.mp hc with hc | hc
      · rcases group3_mem hc with h | h
        · exact Or.inr (Or.inl h)
        · exact Or.inr (Or.inr (Or.inr (hD c h)))
      · rcases List.mem_cons.mp hc with hc | hc
        · exact Or.inr (Or.inr (Or.inl hc))
        · rcases List.mem_cons.mp hc with hc | hc
          · subst hc; exact Or.inr (Or.inr (Or.inr h1))
          · rcases List.mem_cons.mp hc with hc | hc
            · subst hc; exact Or.inr (Or.inr (Or.inr h2))
            · simp at hc
  have hstrip : pyStrip (sg ++ (group3 '.' D ++ ',' :: [c1, c2])) =
      sg ++ (group3 '.' D ++ ',' :: [c1, c2]) := by
    refine pyStrip_no_space fun c hc => ?_
    rcases hmem c hc with h | h | h | h
    · rw [h]; decide
    · rw [h]; decide
    · rw [h]; decide
    · exact (digit_facts h).2.2.2.2.2
  have hdash : replaceChar '−' '-' (sg ++ (group3 '.' D ++ ',' :: [c1, c2])) =
      sg ++ (group3 '.' D ++ ',' :: [c1, c2]) := by
    refine replaceChar_id fun c hc => ?_
    rcases hmem c hc with h | h | h | h
    · rw [h]; decide
    · rw [h]; decide
    · rw [h]; decide
    · exact (digit_facts h).2.2.1
  have hrm : removeChar '.' (sg ++ (group3 '.' D ++ ',' :: [c1, c2])) =
      sg ++ (D ++ ',' :: [c1, c2]) := by
    rw [removeChar_append, removeChar_append, removeChar_id (hsgX '.' (by decide)),
      removeChar_group3 hDd]
    have htl : removeChar '.' (',' :: [c1, c2]) = ',' :: [c1, c2] := by
      refine removeChar_id fun c hc => ?_
      rcases List.mem_cons.mp hc with hc | hc
      · rw [hc]; decide
      · rcases List.mem_cons.mp hc with hc | hc
        · rw [hc]; exact h1d
        · rcases List.mem_cons.mp hc with hc | hc
          · rw [hc]; exact h2d
          · simp at hc
    rw [htl]
  have hfin : replaceChar ',' '.' (sg ++ (D ++ ',' :: [c1, c2])) =
      sg ++ (D ++ '.' :: [c1, c2]) := by
    rw [replaceChar_append, replaceChar_append, replaceChar_id (hsgX ',' (by decide)),
      replaceChar_id hDc, replaceChar_cons, if_pos rfl, replaceChar_cons, if_neg h1c,
      replaceChar_cons, if_neg h2c]
    rfl
  rw [hstrip, hdash, hrm, hfin]

theorem format_parse_roundtrip (k : ℤ) :
    to_float_signed (format_money ((k : ℚ) / 100)) = some ((k : ℚ) / 100) := by
  have hx100 : (k : ℚ) / 100 * 100 = (k : ℚ) := by field_simp
  have hrk : rhe ((k : ℚ) / 100 * 100) = k := by rw [hx100]; exact rhe_intCast k
  have hfd : (fmtComma2 ((k : ℚ) / 100)).data =
      (if (k : ℚ) / 100 < 0 then ['-'] else []) ++
        (group3 ',' (natDigits (k.natAbs / 100)) ++
          '.' :: [Char.ofNat (48 + k.natAbs % 100 / 10),
            Char.ofNat (48 + k.natAbs % 100 % 10)]) := by
    rw [fmtComma2_eq, hrk]
  have hm100 : k.natAbs % 100 < 100 := Nat.mod_lt _ (by norm_num)
  have hlt1 : k.natAbs % 100 / 10 < 10 := by omega
  have hlt2 : k.natAbs % 100 % 10 < 10 := by omega
  have hc1 : isDigitB (Char.ofNat (48 + k.natAbs % 100 / 10)) = true := (digitChar_lt hlt1).1
  have hc2 : isDigitB (Char.ofNat (48 + k.natAbs % 100 % 10)) = true := (digitChar_lt hlt2).1
  have hDD : ∀ c ∈ natDigits (k.natAbs / 100), isDigitB c = true := fun c hc =>
    natDigits_digits hc
  have hsg : (if (k : ℚ) / 100 < 0 then ['-'] else []) = [] ∨
      (if (k : ℚ) / 100 < 0 then ['-'] else []) = ['-'] := by
    by_cases hx : (k : ℚ) / 100 < 0
    · exact Or.inr (if_pos hx)
    · exact Or.inl (if_neg hx)
  have hun : to_float_signed (format_money ((k : ℚ) / 100)) =
      pyFloat (replaceChar ',' '.' (removeChar '.' (replaceChar '−' '-' (pyStrip
        (replaceChar 'X' '.' (replaceChar '.' ',' (replaceChar ',' 'X'
          ((fmtComma2 ((k : ℚ) / 100)).data)))))))) := rfl
  rw [hun, hfd, tfs_format_normalize _ hsg hDD hc1 hc2]
  have hvtl : natVal [Char.ofNat (48 + k.natAbs % 100 / 10),
      Char.ofNat (48 + k.natAbs % 100 % 10)] = k.natAbs % 100 := by
    show (0 * 10 + digitVal (Char.ofNat (48 + k.natAbs % 100 / 10))) * 10 +
      digitVal (Char.ofNat (48 + k.natAbs % 100 % 10)) = k.natAbs % 100
    rw [(digitChar_lt hlt1).2, (digitChar_lt hlt2).2]
    omega
  have hval : natVal (natDigits (k.natAbs / 100) ++
      [Char.ofNat (48 + k.natAbs % 100 / 10), Char.ofNat (48 + k.natAbs % 100 % 10)]) =
      k.natAbs := by
    rw [natVal_append, natDigits_val, hvtl]
    have : (10 : Nat) ^ ([Char.ofNat (48 + k.natAbs % 100 / 10),
        Char.ofNat (48 + k.natAbs % 100 % 10)] : List Char).length = 100 := by rfl
    rw [this]
    omega
  by_cases hk : k < 0
  · have hxneg : (k : ℚ) / 100 < 0 :=
      div_neg_of_neg_of_pos (by exact_mod_cast hk) (by norm_num)
    rw [if_pos hxneg]
    rw [List.singleton_append]
    rw [pyFloat_canonical_neg hDD hc1 hc2]
    rw [hval]
    have habs : ((k.natAbs : ℚ)) = -(k : ℚ) := by
      rw [Int.cast_natAbs, abs_of_neg hk, Int.cast_neg]
    rw [habs, show -(-(k : ℚ) / 100) = (k : ℚ) / 100 from by ring]
  · have hxpos : ¬((k : ℚ) / 100 < 0) := by
      refine not_lt.mpr (div_nonneg ?_ (by norm_num))
      exact_mod_cast not_lt.mp hk
    rw [if_neg hxpos]
    rw [List.nil_append]
    rw [pyFloat_canonical_pos hDD hc1 hc2]
    rw [hval]
    have habs : ((k.natAbs : ℚ)) = (k : ℚ) := by
      rw [Int.cast_natAbs, abs_of_nonneg (not_lt.mp hk)]
    rw [habs]

/-! ## The claims -/

unseal Rat.add Rat.mul Rat.inv Rat.sub Rat.ofScientific

/-- C1, counterexample.  The spec's end-to-end scenario expects the row
"IVA 21% (Total)" to be 57.20 on a page with the lines
"IVA RI SERV.OPER. INT. 45,20" and "IVA RI SIST CUOTAS 12,00"; the code has
no VAT_21_INSTALLMENTS ("SIST CUOTAS") pattern, so the row is 45.20. -/
theorem C1_scenario_counterexample :
    extract_resumen ["IVA RI SERV.OPER. INT. 45,20\nIVA RI SIST CUOTAS 12,00"] =
      some ⟨conceptosList, [5381 / 25, 226 / 5, 0, 0, 0, 0, 0, 0]⟩ ∧
    montoOf (⟨conceptosList, [5381 / 25, 226 / 5, 0, 0, 0, 0, 0, 0]⟩ : Resumen)
        "IVA 21% (Total)" = some (226 / 5) ∧ ((226 : ℚ) / 5) ≠ 57.20 :=
  ⟨by decide, by decide, by decide⟩

/-- C1, amended.  Under the universal strategy the VAT-21 total is the
rounded sum of exactly three matched families — the generic pattern
(`RX_IVA21_ANY`), the RI-discount pattern (`RX_IVA21_RI_DTO_FOT`) and the
RI-services pattern (`RX_IVA21_RI_SERV_INT`); there is no installments
pattern, and on the spec's scenario page the row is 45.20. -/
theorem C1_universal_iva21_sum :
    (∀ t u, extract_universal t = some u →
      ∃ a b c, sumParses (findAllCaps RX_IVA21_ANY t) = some a ∧
        sumParses (findAllCaps RX_IVA21_RI_DTO_FOT t) = some b ∧
        sumParses (findAllCaps RX_IVA21_RI_SERV_INT t) = some c ∧
        u.iva21 = round2 (a + b + c)) ∧
    (extract_resumen ["IVA RI SERV.OPER. INT. 45,20\nIVA RI SIST CUOTAS 12,00"]).bind
        (fun r => montoOf r "IVA 21% (Total)") = some (226 / 5) := by
  constructor
  · intro t u h
    obtain ⟨a, b, c, i, p3, p1, rb, rv, rg, h1, h2, h3, _, _, _, _, _, _, hu⟩ :=
      extract_universal_fields h
    exact ⟨a, b, c, h1, h2, h3, by rw [hu]⟩
  · decide

/-- C1, witness for the amended theorem at a concrete page. -/
theorem C1_universal_iva21_sum_wit :
    extract_universal "IVA 21,00% 210,00" = some ⟨210, 0, 0, 0, 0, 0, 0⟩ ∧
    ∃ a b c, sumParses (findAllCaps RX_IVA21_ANY "IVA 21,00% 210,00") = some a ∧
      sumParses (findAllCaps RX_IVA21_RI_DTO_FOT "IVA 21,00% 210,00") = some b ∧
      sumParses (findAllCaps RX_IVA21_RI_SERV_INT "IVA 21,00% 210,00") = some c ∧
      (⟨210, 0, 0, 0, 0, 0, 0⟩ : UniTot).iva21 = round2 (a + b + c) :=
  ⟨by decide,
    C1_universal_iva21_sum.1 "IVA 21,00% 210,00" ⟨210, 0, 0, 0, 0, 0, 0⟩ (by decide)⟩

/-- C2, counterexample.  A page on which a Cabal-specific pattern matches a
zero amount is processed under the universal strategy, so a document whose
only Cabal match is zero can report a non-zero "Retenciones IVA" row,
against the spec's mutual-exclusion sentence. -/
theorem C2_zero_cabal_match_counterexample :
    findAllCaps CABAL_IVA_ARANCEL_21
        (pre "IVA S/ARANCEL DE DESCUENTO 21,00% 0,00-\nRETENCION IVA 50,00") = ["0,00"] ∧
    extract_resumen ["IVA S/ARANCEL DE DESCUENTO 21,00% 0,00-\nRETENCION IVA 50,00"] =
      some ⟨conceptosList, [0, 0, 0, 0, 0, 0, 50, 0]⟩ ∧
    montoOf (⟨conceptosList, [0, 0, 0, 0, 0, 0, 50, 0]⟩ : Resumen) "Retenciones IVA" =
      some 50 ∧ (50 : ℚ) ≠ 0 :=
  ⟨by decide, by decide, by decide, by decide⟩

/-- C2, amended.  Each page contributes under exactly one strategy:
Cabal-exact when some Cabal rule on that page matched a NON-ZERO amount,
universal otherwise (a zero-amount Cabal match selects universal); when at
least one page has a non-zero Cabal match, the rows "Retenciones IVA" and
"Retenciones Ganancias" are 0.0. -/
theorem C2_per_page_strategy :
    ∀ pages saw ct ut, accumulate pages = some (saw, ct, ut) →
      (saw = pages.any isCabalPage ∧
       ct = sumCabal (pages.filter isCabalPage) ∧
       ut = sumUni (pages.filter fun p => !isCabalPage p)) ∧
      extract_resumen pages = some (summarize (saw, ct, ut)) ∧
      (saw = true →
        montoOf (summarize (saw, ct, ut)) "Retenciones IVA" = some 0 ∧
        montoOf (summarize (saw, ct, ut)) "Retenciones Ganancias" = some 0) := by
  intro pages saw ct ut h
  refine ⟨accumulate_char h, ?_, ?_⟩
  · simp [extract_resumen, h]
  · intro hsaw
    subst hsaw
    rw [summarize_true, montoOf_retIva, montoOf_retGcias]
    exact ⟨rfl, rfl⟩

/-- C2, witness for the amended theorem on a two-page document mixing a
non-zero Cabal page with a universal page. -/
theorem C2_per_page_strategy_wit :
    accumulate ["IVA S/ARANCEL DE DESCUENTO 21,00% 1.000,00-", "RETENCION IVA 50,00"] =
      some (true, ⟨1000, 0, 0, 0, 0⟩, ⟨0, 0, 0, 0, 0, 50, 0⟩) ∧
    montoOf (summarize (true, (⟨1000, 0, 0, 0, 0⟩ : CabalTot),
        (⟨0, 0, 0, 0, 0, 50, 0⟩ : UniTot))) "Retenciones IVA" = some 0 :=
  ⟨by decide,
    ((C2_per_page_strategy
        ["IVA S/ARANCEL DE DESCUENTO 21,00% 1.000,00-", "RETENCION IVA 50,00"]
        true ⟨1000, 0, 0, 0, 0⟩ ⟨0, 0, 0, 0, 0, 50, 0⟩ (by decide)).2.2 rfl).1⟩

/-- C3.  In every summary, a VAT-21 total of 210.00 forces the derived
"Base Neto 21%" row to 1000.00, and a zero VAT-21 (resp. VAT-10,5) total
forces the corresponding base row to 0.0, the division being guarded by the
non-zero test. -/
theorem C3_base_derivation :
    ∀ pages r, extract_resumen pages = some r →
      (montoOf r "IVA 21% (Total)" = some 210 → montoOf r "Base Neto 21%" = some 1000) ∧
      (montoOf r "IVA 21% (Total)" = some 0 → montoOf r "Base Neto 21%" = some 0) ∧
      (montoOf r "IVA 10,5% (Total)" = some 0 → montoOf r "Base Neto 10,5%" = some 0) := by
  intro pages r h
  obtain ⟨saw, ct, ut, hacc, hr⟩ := extract_resumen_cases h
  subst hr
  cases saw
  · refine ⟨?_, ?_, ?_⟩
    · intro h'
      rw [summarize_false, montoOf_iva21] at h'
      rw [summarize_false, montoOf_base21, Option.some.inj h']
      decide
    · intro h'
      rw [summarize_false, montoOf_iva21] at h'
      rw [summarize_false, montoOf_base21, Option.some.inj h']
      decide
    · intro h'
      rw [summarize_false, montoOf_iva105] at h'
      rw [summarize_false, montoOf_base105, Option.some.inj h']
      decide
  · refine ⟨?_, ?_, ?_⟩
    · intro h'
      rw [summarize_true, montoOf_iva21] at h'
      rw [summarize_true, montoOf_base21, Option.some.inj h']
      decide
    · intro h'
      rw [summarize_true, montoOf_iva21] at h'
      rw [summarize_true, montoOf_base21, Option.some.inj h']
      decide
    · intro h'
      rw [summarize_true, montoOf_iva105] at h'
      rw [summarize_true, montoOf_base105, Option.some.inj h']
      decide

/-- C3, witness on a page whose VAT-21 total is 210.00. -/
theorem C3_base_derivation_wit :
    extract_resumen ["IVA 21,00% 210,00"] =
      some ⟨conceptosList, [1000, 210, 0, 0, 0, 0, 0, 0]⟩ ∧
    montoOf (⟨conceptosList, [1000, 210, 0, 0, 0, 0, 0, 0]⟩ : Resumen) "IVA 21% (Total)" =
      some 210 ∧
    montoOf (⟨conceptosList, [1000, 210, 0, 0, 0, 0, 0, 0]⟩ : Resumen) "Base Neto 21%" =
      some 1000 :=
  ⟨by decide, by decide,
    (C3_base_derivation ["IVA 21,00% 210,00"] _ (by decide)).1 (by decide)⟩

/-- C4, counterexample.  A page carrying the printed line "BASE NETO 21
500,00" still gets its "Base Neto 21%" row derived from the tax amount
(210.00 / 0.21 = 1000.00, not the printed 500.00): the code has no
PRINTED_BASE pattern. -/
theorem C4_printed_base_counterexample :
    extract_resumen ["IVA 21,00% 210,00\nBASE NETO 21 500,00"] =
      some ⟨conceptosList, [1000, 210, 0, 0, 0, 0, 0, 0]⟩ ∧
    montoOf (⟨conceptosList, [1000, 210, 0, 0, 0, 0, 0, 0]⟩ : Resumen) "Base Neto 21%" =
      some 1000 ∧ (1000 : ℚ) ≠ 500 :=
  ⟨by decide, by decide, by decide⟩

/-- C4, amended.  The base rows are always derived from the corresponding
tax rows — `base = round2 (tax / rate)` when the tax row is non-zero, else
0 — whatever the page text contains; no printed base line is ever read. -/
theorem C4_base_always_derived :
    ∀ pages r i21 i105, extract_resumen pages = some r →
      montoOf r "IVA 21% (Total)" = some i21 →
      montoOf r "IVA 10,5% (Total)" = some i105 →
      montoOf r "Base Neto 21%" = some (if i21 ≠ 0 then round2 (i21 / 0.21) else 0) ∧
      montoOf r "Base Neto 10,5%" = some (if i105 ≠ 0 then round2 (i105 / 0.105) else 0) := by
  intro pages r i21 i105 h h21 h105
  obtain ⟨saw, ct, ut, hacc, hr⟩ := extract_resumen_cases h
  subst hr
  cases saw
  · rw [summarize_false, montoOf_iva21] at h21
    rw [summarize_false, montoOf_iva105] at h105
    rw [summarize_false, montoOf_base21, montoOf_base105,
      Option.some.inj h21, Option.some.inj h105]
    exact ⟨rfl, rfl⟩
  · rw [summarize_true, montoOf_iva21] at h21
    rw [summarize_true, montoOf_iva105] at h105
    rw [summarize_true, montoOf_base21, montoOf_base105,
      Option.some.inj h21, Option.some.inj h105]
    exact ⟨rfl, rfl⟩

/-- C4, witness for the amended theorem on a concrete page. -/
theorem C4_base_always_derived_wit :
    extract_resumen ["IVA 21,00% 210,00"] =
      some ⟨conceptosList, [1000, 210, 0, 0, 0, 0, 0, 0]⟩ ∧
    montoOf (⟨conceptosList, [1000, 210, 0, 0, 0, 0, 0, 0]⟩ : Resumen) "Base Neto 21%" =
      some (if (210 : ℚ) ≠ 0 then round2 (210 / 0.21) else 0) :=
  ⟨by decide,
    (C4_base_always_derived ["IVA 21,00% 210,00"] _ 210 0 (by decide) (by decide)
      (by decide)).1⟩

/-- C5, counterexample.  `to_float_signed ""` raises (Python `float("")` is
a `ValueError`, modeled as `none`): the malformed input is not recovered as
0.0. -/
theorem C5_empty_string_counterexample :
    to_float_signed "" = none ∧ (none : Option ℚ) ≠ some 0 :=
  ⟨by decide, by decide⟩

/-- C5, amended.  Every string of the amount grammar
`-?\d{1,3}(\.\d{3})*,\d{2}` parses to its exact decimal value (a whole
number of cents); a malformed string such as "" or "- 210,00" makes
`float()` raise, modeled as `none` — the error is not recovered as 0.0. -/
theorem C5_malformed_raises :
    (∀ s, amountShape s = true → ∃ k : ℤ, to_float_signed s = some ((k : ℚ) / 100)) ∧
    to_float_signed "" = none ∧ to_float_signed "- 210,00" = none :=
  ⟨fun s h => amountShape_parses h, by decide, by decide⟩

/-- C5, witness: a concrete well-formed amount parses to a whole number of
cents. -/
theorem C5_malformed_raises_wit :
    amountShape "1.234,50" = true ∧
    (∃ k : ℤ, to_float_signed "1.234,50" = some ((k : ℚ) / 100)) :=
  ⟨by decide, C5_malformed_raises.1 "1.234,50" (by decide)⟩

/-- C6.  The produced summary equals the one obtained by accumulating the
unrounded matched amounts across pages and rounding only at emission: the
per-page rounding the code performs never changes any total. -/
theorem C6_round_once_equivalence :
    ∀ pages, extract_resumen pages = extract_resumen_round_once pages := by
  intro pages
  unfold extract_resumen extract_resumen_round_once
  rw [accumulate_eq_raw]

/-- C7.  Every successful run yields exactly the eight fixed concept rows
in their fixed order, and a document in which no category matches at all
yields amount 0.0 in every row rather than absent rows. -/
theorem C7_fixed_schema :
    ∀ pages r, extract_resumen pages = some r →
      (r.conceptos = conceptosList ∧ r.montos.length = 8) ∧
      ((∀ p ∈ pages, extract_cabal_exact (pre p) = some cabalZero ∧
          extract_universal (pre p) = some uniZero) →
        r = ⟨conceptosList, [0, 0, 0, 0, 0, 0, 0, 0]⟩) := by
  intro pages r h
  obtain ⟨saw, ct, ut, hacc, hr⟩ := extract_resumen_cases h
  subst hr
  obtain ⟨h1, h2, h3⟩ := accumulate_char hacc
  constructor
  · cases saw
    · rw [summarize_false]
      exact ⟨rfl, rfl⟩
    · rw [summarize_true]
      exact ⟨rfl, rfl⟩
  · intro hz
    have hnc : ∀ p ∈ pages, isCabalPage p = false := by
      intro p hp
      have hi : isCabalPage p = decide (cabalNZ cabalZero) := by
        unfold isCabalPage
        rw [(hz p hp).1]
      rw [hi]
      decide
    have hsaw : saw = false := by
      rw [h1, List.any_eq_false]
      intro p hp
      simp [hnc p hp]
    have hct : ct = cabalZero := by
      have hfil : pages.filter isCabalPage = [] :=
        List.filter_eq_nil_iff.mpr fun p hp => by simp [hnc p hp]
      rw [h2, hfil]
      rfl
    have hut : ut = uniZero := by
      rw [h3]
      unfold sumUni
      refine foldl_addU_all_zero fun q hq => ?_
      unfold pageUni
      rw [(hz q (List.mem_filter.mp hq).1).2]
      rfl
    rw [hsaw, hct, hut]
    decide

/-- C7, witness on a page with no match at all. -/
theorem C7_fixed_schema_wit :
    extract_resumen ["hola mundo"] = some ⟨conceptosList, [0, 0, 0, 0, 0, 0, 0, 0]⟩ ∧
    (∀ p ∈ ["hola mundo"], extract_cabal_exact (pre p) = some cabalZero ∧
      extract_universal (pre p) = some uniZero) ∧
    (⟨conceptosList, [0, 0, 0, 0, 0, 0, 0, 0]⟩ : Resumen).conceptos = conceptosList :=
  ⟨by decide, by decide,
    ((C7_fixed_schema ["hola mundo"] _ (by decide)).1).1⟩

/-- C9, counterexample.  The call writes the uploaded bytes to the fixed
path `_aie_input.pdf`, so it does mutate state outside its return value: a
file system that had nothing at that path holds the bytes afterwards. -/
theorem C9_filesystem_mutation_counterexample :
    ((fun _ => none : FSystem) "_aie_input.pdf" = none) ∧
    (extract_resumen_from_bytes (fun _ => []) [1] (fun _ => none)).1 "_aie_input.pdf" =
      some [1] ∧ some ([1] : List Nat) ≠ none :=
  ⟨rfl, by decide, by decide⟩

/-- C9, amended.  The only state the call mutates is the fixed temporary
path `_aie_input.pdf`, which receives the uploaded bytes; every other path
is untouched, and the result is a pure function of the page texts read
back from that path. -/
theorem C9_frame :
    ∀ (pt : List Nat → List String) (b : List Nat) (fs : FSystem),
      (extract_resumen_from_bytes pt b fs).1 = fsWrite fs "_aie_input.pdf" b ∧
      (∀ p, p ≠ "_aie_input.pdf" → (extract_resumen_from_bytes pt b fs).1 p = fs p) ∧
      (extract_resumen_from_bytes pt b fs).2 = extract_resumen (pt b) := by
  intro pt b fs
  refine ⟨rfl, fun p hp => ?_, ?_⟩
  · show fsWrite fs "_aie_input.pdf" b p = fs p
    unfold fsWrite
    rw [if_neg hp]
  · have hc : fsWrite fs "_aie_input.pdf" b "_aie_input.pdf" = some b := by
      unfold fsWrite
      rw [if_pos rfl]
    show extract_resumen (pt ((fsWrite fs "_aie_input.pdf" b "_aie_input.pdf").getD [])) =
      extract_resumen (pt b)
    rw [hc]
    rfl

/-- C9, witness: a path other than the temporary one keeps its contents. -/
theorem C9_frame_wit :
    ("other" : String) ≠ "_aie_input.pdf" ∧
    (extract_resumen_from_bytes (fun _ => []) [2] (fun _ => some [9])).1 "other" =
      some [9] :=
  ⟨by decide,
    (C9_frame (fun _ => []) [2] (fun _ => some [9])).2.1 "other" (by decide)⟩

/-- C10.  Under the Cabal strategy the "IVA 21% (Total)" row is the rounded
arancel accumulator alone, and the whole summary is invariant under the
accumulated `menos_iva` value; yet a non-zero `-IVA 21,00%` match on a page
is by itself sufficient to put that page on the Cabal strategy. -/
theorem C10_menos_iva_never_contributes :
    ∀ pages saw ct ut, accumulate pages = some (saw, ct, ut) →
      (saw = true →
        montoOf (summarize (saw, ct, ut)) "IVA 21% (Total)" =
          some (round2 ct.iva_arancel) ∧
        ∀ m : ℚ, summarize (true, ⟨ct.iva_arancel, ct.iva_costo, ct.percep_rg333,
          ct.ret_iibb, m⟩, ut) = summarize (saw, ct, ut)) ∧
      (∀ p pc, extract_cabal_exact (pre p) = some pc → pc.menos_iva ≠ 0 →
        isCabalPage p = true) := by
  intro pages saw ct ut h
  constructor
  · intro hsaw
    subst hsaw
    constructor
    · rw [summarize_true, montoOf_iva21]
    · intro m
      rw [summarize_true, summarize_true]
  · intro p pc hc hm
    have hi : isCabalPage p = decide (cabalNZ pc) := by
      unfold isCabalPage
      rw [hc]
    rw [hi, decide_eq_true_eq]
    unfold cabalNZ
    exact Or.inr (Or.inr (Or.inr (Or.inr hm)))

/-- C10, witness: a page whose only match is `-IVA 21,00% 50,00-` selects
the Cabal strategy while its VAT-21 row is `round2 0 = 0`. -/
theorem C10_menos_iva_never_contributes_wit :
    accumulate ["-IVA 21,00% 50,00-"] = some (true, ⟨0, 0, 0, 0, 50⟩, uniZero) ∧
    montoOf (summarize (true, (⟨0, 0, 0, 0, 50⟩ : CabalTot), uniZero)) "IVA 21% (Total)" =
      some (round2 (0 : ℚ)) ∧
    extract_cabal_exact (pre "-IVA 21,00% 50,00-") = some ⟨0, 0, 0, 0, 50⟩ ∧
    isCabalPage "-IVA 21,00% 50,00-" = true :=
  ⟨by decide,
    ((C10_menos_iva_never_contributes ["-IVA 21,00% 50,00-"] true ⟨0, 0, 0, 0, 50⟩ uniZero
        (by decide)).1 rfl).1,
    by decide,
    (C10_menos_iva_never_contributes ["-IVA 21,00% 50,00-"] true ⟨0, 0, 0, 0, 50⟩ uniZero
        (by decide)).2 "-IVA 21,00% 50,00-" ⟨0, 0, 0, 0, 50⟩ (by decide) (by decide)⟩


/-- C8.  On every string of the amount grammar `-?\d{1,3}(\.\d{3})*,\d{2}`,
parsing, formatting the parsed value with `format_money` and re-parsing
yields the same decimal value. -/
theorem C8_parse_format_parse :
    ∀ s, amountShape s = true →
      ∃ v, to_float_signed s = some v ∧ to_float_signed (format_money v) = some v := by
  intro s h
  obtain ⟨k, hk⟩ := amountShape_parses h
  exact ⟨(k : ℚ) / 100, hk, format_parse_roundtrip k⟩

/-- C8, witness at a concrete well-formed amount. -/
theorem C8_parse_format_parse_wit :
    amountShape "1.234,50" = true ∧
    (∃ v, to_float_signed "1.234,50" = some v ∧ to_float_signed (format_money v) = some v) :=
  ⟨by decide, C8_parse_format_parse "1.234,50" (by decide)⟩

end AIE
